import Mathlib

/-
Verification of the document chunking / multi-chunk answer aggregation
pipeline of the Survey-App repository (src/app/extractor.py).

Python strings are embedded as List Char; Python dicts that the code
iterates or updates are embedded as insertion-ordered association lists.
The tiktoken encoder is an external collaborator and is embedded as an
abstract token-counting function (tok : List Char -> Nat); theorems
quantify over it, and concrete instantiations use explicit counters.
The while-loop of chunk_document is embedded with explicit fuel, because
the loop does not terminate on all inputs (see claim C10).
-/

namespace Survey

/-- A Python string, embedded as its list of characters. -/
abbrev Txt := List Char

/-- Model of Python whitespace as tested by str.strip(): the ASCII
whitespace characters (unicode space characters are not modelled; no
claim exercises them). -/
def pyIsSpace (c : Char) : Bool :=
  c = ' ' || c = '\t' || c = '\n' || c = '\r' || c = '\x0b' || c = '\x0c'

/-- Python `not s.strip()`: every character is whitespace. -/
def isBlank (s : Txt) : Bool := s.all pyIsSpace

/-- The line-terminator characters recognised by Python str.splitlines. -/
def isLineBreakChar (c : Char) : Bool :=
  c = '\n' || c = '\r' || c = '\x0b' || c = '\x0c' ||
  c = '\x1c' || c = '\x1d' || c = '\x1e' || c = '\x85' ||
  c = '\u2028' || c = '\u2029'

/-- Model of Python str.splitlines(): cut at every line-terminator
character, treating a "\r\n" pair as one terminator, and drop a final
empty piece produced by a trailing terminator. -/
def splitlines : Txt → List Txt
  | [] => []
  | c :: rest =>
    if isLineBreakChar c then
      match rest with
      | [] => [[]]
      | c2 :: rest2 =>
        if c = '\r' && c2 = '\n' then [] :: splitlines rest2
        else [] :: splitlines (c2 :: rest2)
    else
      match splitlines rest with
      | [] => [[c]]
      | l :: ls => (c :: l) :: ls

/-- Index (counting from base i) of the first newline character in a
list; used to model str.find("\n", pos). -/
def findNlIdx : Txt → ℕ → Option ℕ
  | [], _ => none
  | c :: rest, i => if c = '\n' then some i else findNlIdx rest (i + 1)

/-- Model of Python text.find("\n", pos): index of the first '\n' at or
after pos, none when there is no such index (Python returns -1). -/
def pyFindNl (t : Txt) (pos : ℕ) : Option ℕ := findNlIdx (t.drop pos) pos

/-- Index of the last newline character of a list, when there is one. -/
def lastNlIdx : Txt → Option ℕ
  | [] => none
  | c :: rest =>
    match lastNlIdx rest with
    | some j => some (j + 1)
    | none => if c = '\n' then some 0 else none

/-- Model of Python text.rfind("\n", 0, bound): index of the last '\n'
strictly before bound, none when there is no such index. -/
def pyRfindNl (t : Txt) (bound : ℕ) : Option ℕ := lastNlIdx (t.take bound)

/-- Python slice text[a:b] (for a ≤ b; empty when a ≥ b). -/
def slice (t : Txt) (a b : ℕ) : Txt := (t.drop a).take (b - a)

/-- State of the line-accumulating re-split loop of chunk_document
(variables sub, sub_text, and the chunks appended so far). -/
structure SubState where
  sub : List Txt
  subText : Txt
  out : List Txt
  deriving Repr, DecidableEq

/-- One step of the re-split loop body of chunk_document (lines 135-145
of extractor.py): extend sub_text with the next line, flushing the
accumulator first when the extended text would reach the token budget. -/
def resplitStep (size : ℕ) (tok : Txt → ℕ) (st : SubState) (l : Txt) : SubState :=
  let newSubText := st.subText ++ (if st.subText ≠ [] then ['\n'] else []) ++ l
  if tok newSubText ≥ size ∧ st.sub ≠ [] then
    ⟨[l], l, st.out ++ [st.subText]⟩
  else
    ⟨st.sub ++ [l], newSubText, st.out⟩

/-- The re-split of an over-budget window by whole lines (extractor.py
lines 131-147), including the final flush of a non-empty accumulator. -/
def resplit (size : ℕ) (tok : Txt → ℕ) (lines : List Txt) : List Txt :=
  let st := lines.foldl (resplitStep size tok) ⟨[], [], []⟩
  if st.sub ≠ [] then st.out ++ [st.subText] else st.out

/-- A string with no line-terminator character: a single line. -/
def noBreak (s : Txt) : Bool := s.all (fun c => ¬ isLineBreakChar c)

/-- A string ending in a newline character: a window cut at such a
position never splits a line. -/
def endsNl (u : Txt) : Prop := ∃ x, u = x ++ ['\n']

/-- Invariant of the re-split loop state: an empty accumulator has
empty text, a non-empty accumulator is under budget or a single line,
and every flushed chunk is under budget or a single line. -/
def BudgetInv (size : ℕ) (tok : Txt → ℕ) (st : SubState) : Prop :=
  (st.sub = [] → st.subText = []) ∧
  (st.sub ≠ [] → (tok st.subText < size ∨ noBreak st.subText = true)) ∧
  (∀ ch ∈ st.out, tok ch < size ∨ noBreak ch = true)

/-- A line is tracked by a re-split state when it is a line of the
pending accumulator or of an already flushed chunk. -/
def Tracked (st : SubState) (m : Txt) : Prop :=
  m ∈ splitlines st.subText ∨ ∃ ch ∈ st.out, m ∈ splitlines ch

/-- Record of one iteration of the cursor loop of chunk_document:
the window start, the tentative cut min(len, start + 4*size), the cut
after the newline adjustment, the chunks appended by this iteration,
and the start position for the next iteration. -/
structure IterRec where
  start : ℕ
  rawEnd : ℕ
  endPos : ℕ
  emitted : List Txt
  nextStart : ℕ
  deriving Repr, DecidableEq

/-- One iteration of the cursor loop of chunk_document (extractor.py
lines 115-166): compute the window, extend it to the next line break
when one lies within 500 characters of the tentative cut, emit the
window (re-split by lines when over budget, skipped when blank), and
compute the next start (with overlap pull-back and line-start snap). -/
def chunkIter (text : Txt) (size overlap : ℕ) (tok : Txt → ℕ) (start : ℕ) : IterRec :=
  let n := text.length
  let e0 := min n (start + size * 4)
  let e :=
    if e0 < n then
      match pyFindNl text e0 with
      | some p => if p < e0 + 500 then p + 1 else e0
      | none => e0
    else e0
  let chunk := slice text start e
  let emitted :=
    if isBlank chunk then []
    else if tok chunk > size then resplit size tok (splitlines chunk)
    else [chunk]
  let ns :=
    if 0 < overlap ∧ e < n then
      let s1 := e - overlap * 4
      if 0 < s1 then
        match pyRfindNl text s1 with
        | some p => p + 1
        | none => s1
      else s1
    else e
  ⟨start, e0, e, emitted, ns⟩

/-- The cursor loop of chunk_document, with explicit fuel: the loop
body does not make progress on every input (claim C10), so the
embedding bounds the number of iterations and reports whether the
loop exited by its own condition (completed = true) or ran out of
fuel (completed = false). -/
def chunkLoop (text : Txt) (size overlap : ℕ) (tok : Txt → ℕ) :
    ℕ → ℕ → List IterRec × Bool
  | 0, _ => ([], false)
  | fuel + 1, start =>
    if start < text.length then
      let r := chunkIter text size overlap tok start
      let rest := chunkLoop text size overlap tok fuel r.nextStart
      (r :: rest.1, rest.2)
    else ([], true)

/-- Result of chunk_document: the chunk list, the per-iteration
records of the cursor loop, and whether the loop ran to completion. -/
structure ChunkOut where
  chunks : List Txt
  recs : List IterRec
  completed : Bool
  deriving Repr, DecidableEq

/-- chunk_document (extractor.py lines 80-168): return the text as a
single chunk when it fits the token budget, otherwise run the cursor
loop; the emitted chunk list is the concatenation, in order, of the
chunks appended by each iteration. -/
def chunkDocument (fuel : ℕ) (text : Txt) (size overlap : ℕ) (tok : Txt → ℕ) : ChunkOut :=
  if tok text ≤ size then ⟨[text], [], true⟩
  else
    let r := chunkLoop text size overlap tok fuel 0
    ⟨(r.1.map IterRec.emitted).flatten, r.1, r.2⟩

/-- Cache key of get_cache_key (extractor.py lines 171-183): the key is
built from an md5 of (first 1000 characters ++ str(length)) together
with the three chunking parameters; the embedding keeps the hash input
itself, which identifies keys exactly when the source's hash inputs are
equal (md5 of equal inputs is equal, so every collision of this model
is a collision of the source). -/
structure CacheKey where
  docPrefix1000 : Txt
  docLen : ℕ
  size : ℕ
  overlap : ℕ
  encName : Txt
  deriving Repr, DecidableEq

/-- get_cache_key applied to the arguments of chunk_document_cached. -/
def getCacheKey (text : Txt) (size overlap : ℕ) (encName : Txt) : CacheKey :=
  ⟨text.take 1000, text.length, size, overlap, encName⟩

/-- The module-level _chunk_cache: an insertion-ordered mapping from
cache key to chunk list (Python dicts preserve insertion order, and
next(iter(d)) is the first inserted key). -/
abbrev CacheState := List (CacheKey × List Txt)

/-- Association-list lookup used for the _chunk_cache. -/
def cacheLookup (k : CacheKey) : CacheState → Option (List Txt)
  | [] => none
  | (k', v) :: rest => if k' = k then some v else cacheLookup k rest

/-- chunk_document_cached (extractor.py lines 190-225): return the
cached chunk list when the key is present, otherwise chunk the
document, evicting the first-inserted entry when the cache already
holds 10 entries, and store the new entry.  The tokenizer belonging to
each encoding name is supplied by tokOf, and the chunk_document loop
fuel by fuel. -/
def chunkDocumentCached (tokOf : Txt → Txt → ℕ) (fuel : ℕ) (st : CacheState)
    (text : Txt) (size overlap : ℕ) (encName : Txt) : List Txt × CacheState :=
  let key := getCacheKey text size overlap encName
  match cacheLookup key st with
  | some chunks => (chunks, st)
  | none =>
    let chunks := (chunkDocument fuel text size overlap (tokOf encName)).chunks
    let st' := if 10 ≤ st.length then st.tail else st
    (chunks, st' ++ [(key, chunks)])

deriving instance DecidableEq for Except

/-- A JSON scalar value as produced by json.loads, distinguishing the
Python types None, bool, int, float and str (bool is kept apart from
int because isinstance checks distinguish them, even though bool
compares as a number).  Container values (lists, dicts) that the
pipeline would only pass through opaquely are not part of the model;
no claim exercises them. -/
inductive JVal where
  | null
  | bool (b : Bool)
  | int (n : ℤ)
  | float (q : ℚ)
  | str (s : Txt)
  deriving Repr, DecidableEq

/-- The numeric content of a Python value for arithmetic comparison:
ints and floats as themselves, bools as 0/1, everything else
non-numeric. -/
def toQ : JVal → Option ℚ
  | JVal.int n => some (n : ℚ)
  | JVal.float q => some q
  | JVal.bool b => some (if b then 1 else 0)
  | _ => none

/-- Lexicographic strict comparison of Python strings by code point. -/
def strLt : Txt → Txt → Bool
  | [], [] => false
  | [], _ :: _ => true
  | _ :: _, [] => false
  | a :: s, b :: t => if a = b then strLt s t else a < b

/-- Python truthiness (bool(v)) for the modelled scalar values. -/
def pyTruthy : JVal → Bool
  | JVal.null => false
  | JVal.bool b => b
  | JVal.int n => n ≠ 0
  | JVal.float q => q ≠ 0
  | JVal.str s => s ≠ []

/-- Python `a > b`: numbers (bool, int, float) compare by value,
strings compare lexicographically, and every other combination raises
TypeError, modelled as an error result. -/
def pyGt (a b : JVal) : Except Unit Bool :=
  match toQ a, toQ b with
  | some x, some y => Except.ok (decide (y < x))
  | _, _ =>
    match a, b with
    | JVal.str s, JVal.str t => Except.ok (strLt t s)
    | _, _ => Except.error ()

/-- Python `v == 0`: true exactly for the numeric values equal to
zero; == between unrelated types is False, never an error. -/
def pyEqZero (v : JVal) : Bool :=
  match toQ v with
  | some x => x = 0
  | none => false

/-- Python str(v) for the modelled scalars.  Strings render as
themselves and bools as "True"/"False", exactly as in Python; the
numeric renderings reuse the decimal toString of the embedding (exact
for the integer values any claim exercises). -/
def pyStr : JVal → Txt
  | JVal.null => "None".toList
  | JVal.bool b => (if b then "True" else "False").toList
  | JVal.int n => (toString n).toList
  | JVal.float q => (toString q).toList
  | JVal.str s => s

/-- Model of Python int(s) on its sign-and-digits core: optional
surrounding ASCII whitespace, an optional sign, then at least one
digit; every other shape fails (raises ValueError).  Underscored
digit groups, which no id of the q<number> wire format contains, are
not modelled. -/
def pyInt (s : Txt) : Option ℤ :=
  let t := (s.dropWhile pyIsSpace).reverse.dropWhile pyIsSpace |>.reverse
  let core : Bool × Txt :=
    match t with
    | [] => (false, t)
    | c :: rest =>
      if c = '-' then (true, rest) else if c = '+' then (false, rest) else (false, t)
  if core.2 ≠ [] ∧ core.2.all Char.isDigit then
    let v : ℕ := core.2.foldl (fun acc c => acc * 10 + (c.toNat - '0'.toNat)) 0
    some (if core.1 then -(v : ℤ) else (v : ℤ))
  else none

/-- Python str.lower, modelled on ASCII letters via Char.toLower. -/
def pyLower (s : Txt) : Txt := s.map Char.toLower

/-- A submitted question as consumed by the bulk extractor: a dict
with integer id, text, an optional type string, and an options list
(absent options modelled as the empty list, just as
original_q.get('options', []) yields). -/
structure Question where
  id : ℤ
  text : Txt
  qtype : Option Txt
  options : List Txt
  deriving Repr, DecidableEq

/-- The citation object of one returned answer.  All-null fields
model an absent, null or empty citation: the code's `if citation:`
guard and its per-field truthiness guards give those cases the same
location record as an object of null fields. -/
structure Citation where
  page : JVal
  snippet : JVal
  docName : JVal
  deriving Repr, DecidableEq

/-- The citation slot of a raw answer: a citation object, a value the
truthiness guard skips (absent/null/empty), or a truthy non-dict value
whose attribute lookup raises and aborts the chunk. -/
inductive CitVal where
  | obj (c : Citation)
  | nullLike
  | bad
  deriving Repr, DecidableEq

/-- One element of the "answers" array of a chunk response, after
json.loads: the values of its "id", "answer", "confidence" and
"citation" keys.  An absent id is written str "" and an absent
confidence float 0, matching the .get defaults; an absent or null
answer is written null (both make `answer_value is None` true). -/
structure RawAnswer where
  id : JVal
  answer : JVal
  confidence : JVal
  citation : CitVal
  deriving Repr, DecidableEq

/-- The outcome of one per-chunk model call as seen by process_chunk:
either a failure (transport error or a body that is not a JSON object
with a list of answer objects), or the parsed list of answers. -/
inductive ChunkOutcome where
  | fail
  | ok (answers : List RawAnswer)
  deriving Repr, DecidableEq

/-- The location record assembled from a citation by process_chunk. -/
structure LocData where
  page_number : Option JVal
  paragraph_number : Option JVal
  context : Option JVal
  docName : Option JVal
  deriving Repr, DecidableEq

/-- A location record with every field absent, collapsed to null by
the `location_data if location_data else None` guard. -/
def LocData.isEmpty (l : LocData) : Bool :=
  l.page_number = none ∧ l.paragraph_number = none ∧
  l.context = none ∧ l.docName = none

/-- One stored answer record of the bulk pipeline (the dict built at
extractor.py lines 548-554). -/
structure Ans where
  question_id : ℤ
  field : Txt
  value : Option Txt
  confidence : JVal
  location : Option LocData
  deriving Repr, DecidableEq

/-- The per-chunk results dict, keyed by question number, in insertion
order (a later answer for the same question overwrites the value but
keeps the key's position, as Python dicts do). -/
abbrev ChunkResults := List (ℤ × Ans)

/-- Update-or-append on an insertion-ordered dict: an existing key
keeps its position, a new key is appended. -/
def dset (k : ℤ) (v : Ans) : ChunkResults → ChunkResults
  | [] => [(k, v)]
  | (k', v') :: rest => if k' = k then (k, v) :: rest else (k', v') :: dset k v rest

/-- Lookup on an insertion-ordered dict. -/
def dget (k : ℤ) : ChunkResults → Option Ans
  | [] => none
  | (k', v) :: rest => if k' = k then some v else dget k rest

/-- The id parser of process_chunk (extractor.py lines 501-502):
`int(q_id.replace("q", "")) if q_id.startswith("q") else None`.  The
result is none for a string id that does not start with "q"; it is an
error (an uncaught exception inside the chunk's try block) when the id
is not a string at all (AttributeError on .startswith) or when the id
starts with "q" but deleting every "q" leaves no valid integer
(ValueError from int()). -/
def parseQNum (v : JVal) : Except Unit (Option ℤ) :=
  match v with
  | JVal.str s =>
    match s with
    | 'q' :: _ =>
      match pyInt (s.filter (fun c => c ≠ 'q')) with
      | some n => Except.ok (some n)
      | none => Except.error ()
    | _ => Except.ok none
  | _ => Except.error ()

/-- The location record built from a kept answer's citation
(extractor.py lines 520-533): a truthy page lands in page_number for
pdf and paragraph_number for docx (nowhere for any other file type),
a truthy snippet in context, a truthy docName in docName.  A bad
citation value raises. -/
def buildLoc (ft : Option Txt) : CitVal → Except Unit LocData
  | CitVal.bad => Except.error ()
  | CitVal.nullLike => Except.ok ⟨none, none, none, none⟩
  | CitVal.obj c =>
    let l0 : LocData := ⟨none, none, none, none⟩
    let l1 :=
      if pyTruthy c.page then
        if ft = some "pdf".toList then { l0 with page_number := some c.page }
        else if ft = some "docx".toList then { l0 with paragraph_number := some c.page }
        else l0
      else l0
    let l2 := if pyTruthy c.snippet then { l1 with context := some c.snippet } else l1
    let l3 := if pyTruthy c.docName then { l2 with docName := some c.docName } else l2
    Except.ok l3

/-- The type coercion of a kept answer value (extractor.py lines
535-546): a boolean yesno answer becomes "Yes"/"No" and a string one
stays; a dropdown string answer not among the options is replaced by
the first case-insensitively matching option when that option is
non-empty (the `matched if matched` truthiness guard), else kept. -/
def coerceValue (q : Question) (v : JVal) : JVal :=
  if q.qtype = some "yesno".toList then
    match v with
    | JVal.bool b => JVal.str (if b then "Yes".toList else "No".toList)
    | JVal.str s => JVal.str s
    | w => w
  else
    match v with
    | JVal.str s =>
      if q.qtype = some "dropdown".toList then
        if s ∉ q.options ∧ q.options ≠ [] then
          match q.options.find? (fun o => pyLower o = pyLower s) with
          | some o => JVal.str (if o = [] then s else o)
          | none => JVal.str s
        else JVal.str s
      else JVal.str s
    | w => w

/-- The body of the answers loop of process_chunk (extractor.py lines
500-554), processing answers left to right into the chunk results
dict.  Exceptions inside the loop escape to the chunk's handler. -/
def processAnswers (qs : List Question) (ft : Option Txt) :
    List RawAnswer → ChunkResults → Except Unit ChunkResults
  | [], acc => Except.ok acc
  | a :: rest, acc => do
    let qn ← parseQNum a.id
    match qn with
    | none => processAnswers qs ft rest acc
    | some n =>
      if a.answer = JVal.null then processAnswers qs ft rest acc
      else
        match qs.find? (fun q => q.id = n) with
        | none => processAnswers qs ft rest acc
        | some q => do
          let loc ← buildLoc ft a.citation
          let fv := coerceValue q a.answer
          let ans : Ans :=
            ⟨n, q.text, some (pyStr fv), a.confidence,
              if loc.isEmpty then none else some loc⟩
          processAnswers qs ft rest (dset n ans acc)

/-- process_chunk (extractor.py lines 436-563): parse the chunk's
answers into a results dict; any failure — transport, JSON, or an
exception while processing an answer — makes the chunk contribute an
empty result set. -/
def processChunk (qs : List Question) (ft : Option Txt) : ChunkOutcome → ChunkResults
  | ChunkOutcome.fail => []
  | ChunkOutcome.ok answers =>
    match processAnswers qs ft answers [] with
    | Except.ok r => r
    | Except.error _ => []

/-- The merge predicate of the cross-chunk loop (extractor.py lines
577-587): keep the new candidate when there is no existing answer,
when `confidence > existing_confidence`, or when `confidence > 0` and
the existing confidence == 0.  The comparisons use Python `>` and can
raise on non-numeric confidences. -/
def shouldKeep (existing : Option Ans) (conf : JVal) : Except Unit Bool :=
  match existing with
  | none => Except.ok true
  | some e => do
    let gt ← pyGt conf e.confidence
    if gt then Except.ok true
    else do
      let gt0 ← pyGt conf (JVal.int 0)
      if gt0 then Except.ok (pyEqZero e.confidence)
      else Except.ok false

/-- One step of the merge loop: update all_results with one (question
number, answer) pair of a chunk's results. -/
def mergeStep (all : ChunkResults) (p : ℤ × Ans) : Except Unit ChunkResults := do
  let keep ← shouldKeep (dget p.1 all) p.2.confidence
  if keep then Except.ok (dset p.1 p.2 all) else Except.ok all

/-- The cross-chunk merge (extractor.py lines 569-590): fold every
chunk's results, in chunk order, through the merge step. -/
def mergeAll (results : List ChunkResults) : Except Unit ChunkResults :=
  results.foldlM (fun all cr => cr.foldlM mergeStep all) []

/-- The "not found" answer record for a question (extractor.py lines
600-606). -/
def defaultAns (q : Question) : Ans := ⟨q.id, q.text, none, JVal.float 0, none⟩

/-- The output formatting loop (extractor.py lines 592-606): one
answer per submitted question, in order, defaulting to the "not
found" record. -/
def formatResults (qs : List Question) (all : ChunkResults) : List Ans :=
  qs.map (fun q =>
    match dget q.id all with
    | some a => a
    | none => defaultAns q)

/-- The aggregation phase of extract_bulk_questions_with_gpt after the
per-chunk model calls settle (extractor.py lines 565-608), as a
function of the submitted questions and the per-chunk outcomes in
chunk order (asyncio.gather preserves order). -/
def bulkAggregate (qs : List Question) (ft : Option Txt)
    (outcomes : List ChunkOutcome) : Except Unit (List Ans) := do
  let merged ← mergeAll (outcomes.map (processChunk qs ft))
  Except.ok (formatResults qs merged)

/-- A Python dict with string keys and scalar JSON values, in
insertion order; models the location dict of the single-field path. -/
abbrev PyDict := List (Txt × JVal)

/-- dict.get(key, None) on a PyDict. -/
def pdGet (k : Txt) : PyDict → JVal
  | [] => JVal.null
  | (k', v) :: rest => if k' = k then v else pdGet k rest

/-- dict[key] = value on a PyDict: an existing key keeps its position,
a new key is appended. -/
def pdSet (k : Txt) (v : JVal) : PyDict → PyDict
  | [] => [(k, v)]
  | (k', v') :: rest => if k' = k then (k, v) :: rest else (k', v') :: pdSet k v rest

/-- The "location" slot of a parsed single-field response: absent
(defaulted to an empty dict by result.get("location", {})), a dict, or
a non-dict JSON value (null included).  Whether a non-dict raises
depends on the truthiness of line_to_location_map: only a truthy map
reaches the .get lookup that raises AttributeError. -/
inductive LocVal where
  | absent
  | dictV (d : PyDict)
  | nonDict (v : JVal)
  deriving Repr, DecidableEq

/-- One parsed single-field model response: the "value" entry and the
"location" entry of the returned JSON object. -/
structure FieldResult where
  value : JVal
  location : LocVal
  deriving Repr, DecidableEq

/-- The outcome of one per-chunk model call of the single-field path:
failure (transport error or unparseable JSON) or a parsed object. -/
inductive FieldResp where
  | fail
  | ok (r : FieldResult)
  deriving Repr, DecidableEq

/-- The location component of a returned (value, location) pair:
None, a non-empty location dict, or the raw non-dict JSON value that
the falsy-map path returns unexamined (`location_data if location_data
else None` hands back whatever truthy object the model sent). -/
inductive LocOut where
  | nullV
  | dictV (d : PyDict)
  | rawV (v : JVal)
  deriving Repr, DecidableEq

/-- Python truthiness of the line_to_location_map argument: None and
the empty dict are falsy, a non-empty dict is truthy. -/
def mapTruthy (m : Option (List (ℤ × ℤ))) : Bool :=
  match m with | some (_ :: _) => true | _ => false

/-- The per-chunk body of extract_field_value_with_gpt (extractor.py
lines 288-302): read value and location; `if line_to_location_map and
location_data.get("line_number") is not None` short-circuits, so only
a truthy map reaches the .get lookup — on a dict it may enrich the
location with the true page/paragraph number, on a non-dict it raises
AttributeError and the except handler skips the chunk; with a falsy
map a non-dict location is never touched.  Then `if value:` returns
the pair (the location when truthy, else None) exactly when the value
is truthy.  none means the loop continues with the next chunk. -/
def processFieldResp (m : Option (List (ℤ × ℤ))) (ft : Option Txt)
    (r : FieldResult) : Option (JVal × LocOut) :=
  match r.location with
  | LocVal.nonDict v =>
    if mapTruthy m then none
    else if pyTruthy r.value then
      some (r.value, if pyTruthy v then LocOut.rawV v else LocOut.nullV)
    else none
  | loc =>
    let d0 := match loc with | LocVal.dictV d => d | _ => []
    let d1 :=
      if mapTruthy m && pdGet "line_number".toList d0 ≠ JVal.null then
        let ln := pdGet "line_number".toList d0
        let asInt : Option ℤ :=
          match ln with
          | JVal.int n => some n
          | JVal.bool b => some (if b then 1 else 0)
          | _ => none
        match asInt, m with
        | some n, some pairs =>
          match pairs.lookup n with
          | some page =>
            if ft = some "pdf".toList then
              pdSet "page_number".toList (JVal.int page) d0
            else if ft = some "docx".toList then
              pdSet "paragraph_number".toList (JVal.int page) d0
            else d0
          | none => d0
        | _, _ => d0
      else d0
    if pyTruthy r.value then
      some (r.value, if d1 = [] then LocOut.nullV else LocOut.dictV d1)
    else none

/-- The chunk loop of extract_field_value_with_gpt (extractor.py lines
276-310): walk the chunk responses in order, return the first
successful pair, fall through failures and non-hits, and yield
(None, None) when every chunk is exhausted. -/
def extractFieldValue (m : Option (List (ℤ × ℤ))) (ft : Option Txt) :
    List FieldResp → JVal × LocOut
  | [] => (JVal.null, LocOut.nullV)
  | FieldResp.fail :: rest => extractFieldValue m ft rest
  | FieldResp.ok r :: rest =>
    match processFieldResp m ft r with
    | some out => out
    | none => extractFieldValue m ft rest

/-- An answer whose id parses to a question number but is discarded by
process_chunk, or an answer with null value, or one whose string id
does not start with "q": these are the shapes the loop skips with
`continue`, keeping the rest of the chunk. -/
def discardsAnswer (qs : List Question) (a : RawAnswer) : Prop :=
  parseQNum a.id = Except.ok none ∨
  (∃ n, parseQNum a.id = Except.ok (some n) ∧
    (a.answer = JVal.null ∨ qs.find? (fun q => q.id = n) = none))

/-- An answer whose id raises inside the chunk's try block: a non-str
id (AttributeError) or a str id starting with "q" whose remainder is
not an integer (ValueError). -/
def abortsAnswer (a : RawAnswer) : Prop := parseQNum a.id = Except.error ()

/-- A one-question batch used by concrete counterexamples. -/
def q1ex : Question := ⟨1, "F".toList, some "text".toList, []⟩

/-- An answer whose id "qabc" starts with "q" but has no integer
remainder, so int() raises inside process_chunk's try block. -/
def ansBadId : RawAnswer :=
  ⟨JVal.str "qabc".toList, JVal.str "x".toList, JVal.float (mkRat 1 1), CitVal.nullLike⟩

/-- A well-formed answer to question 1. -/
def ansGood : RawAnswer :=
  ⟨JVal.str "q1".toList, JVal.str "y".toList, JVal.float (mkRat 1 1), CitVal.nullLike⟩

/-- A well-formed answer to question 1 whose confidence is JSON null
(so dict.get returns None, not the 0.0 default). -/
def ansNullConf : RawAnswer :=
  ⟨JVal.str "q1".toList, JVal.str "b".toList, JVal.null, CitVal.nullLike⟩

/-- An answer whose id "q9" parses but matches no submitted question. -/
def ansUnknown : RawAnswer :=
  ⟨JVal.str "q9".toList, JVal.str "z".toList, JVal.float (mkRat 1 1), CitVal.nullLike⟩

/-- A yes/no question used by concrete coercion witnesses. -/
def qYesno : Question := ⟨2, "G".toList, some "yesno".toList, []⟩

/-- A merged state is good when every entry's confidence is numeric
and its stored question_id equals its key. -/
def GoodRes (l : ChunkResults) : Prop :=
  ∀ p ∈ l, (toQ (p.2).confidence).isSome ∧ (p.2).question_id = p.1

/-- A chunk response the single-field loop passes over: a failed call,
or a parsed response that does not return (its value is falsy, or the
map is truthy and its location is a non-dict whose attribute lookup
raises, so the except handler continues the loop). -/
def fieldSkips (m : Option (List (ℤ × ℤ))) (ft : Option Txt) (r : FieldResp) : Prop :=
  r = FieldResp.fail ∨ ∃ fr, r = FieldResp.ok fr ∧ processFieldResp m ft fr = none

/-- A single-field response whose value is the empty string: non-null
but falsy. -/
def frEmpty : FieldResult := ⟨JVal.str [], LocVal.absent⟩

/-- A single-field response with a truthy value. -/
def frHit : FieldResult := ⟨JVal.str "x".toList, LocVal.absent⟩

/-- A single-field response with a truthy value and a JSON-null
location: the shape the /extract endpoint (which passes
line_to_location_map=None) returns rather than skips. -/
def frNullLoc : FieldResult := ⟨JVal.str "x".toList, LocVal.nonDict JVal.null⟩

/-- A truthy (non-empty) line-to-location map used by concrete
single-field examples. -/
def mapEx : Option (List (ℤ × ℤ)) := some [(3, 7)]

/-- A text whose first line is longer than the character window: ten
a's, a newline, five b's.  At chunk size 2 and overlap 1 the overlap
pull-back lands strictly inside the first line. -/
def c4text : Txt := List.replicate 10 'a' ++ '\n' :: List.replicate 5 'b'

/-- A tokenizer family for concrete runs: every encoding name counts
one token per character. -/
def tokLenOf : Txt → Txt → ℕ := fun _ s => s.length

/-- A 1001-character text: 1000 copies of x, then a. -/
def colA : Txt := List.replicate 1000 'x' ++ ['a']

/-- A 1001-character text sharing colA's first 1000 characters and
length but differing in the last character. -/
def colB : Txt := List.replicate 1000 'x' ++ ['b']

/-- An 11-character text — "a", a newline, then nine "b"s — on which
the cursor loop of chunk_document never terminates with
chunk_size_tokens = 2 and overlap_tokens = 1 under a one-token-per-
character encoder: the overlap pull-back plus the backward line-start
snap return the cursor to position 2 on every iteration. -/
def badText : Txt := 'a' :: '\n' :: List.replicate 9 'b'

/-- A 20-character single-line text used to exhibit a hard split: with
a one-token-per-character encoder and chunk size 4 the cursor cuts it
mid-line, so its one line survives in no chunk. -/
def covText : Txt := List.replicate 20 'a'

/-- A two-line newline-terminated text on which the chunker's one
window ends exactly at the text end after the newline extension. -/
def covNl : Txt := "ab\ncd\n".toList

/-- The single cursor-loop record of the covNl run. -/
def covNlRec : IterRec := ⟨0, 4, 6, ["ab".toList, "cd".toList], 6⟩

/-- A sample location record, to show merged answers carry their
location along. -/
def locLow : LocData := ⟨some (JVal.int 1), none, some (JVal.str "low ctx".toList), none⟩

/-- A second sample location record. -/
def locHigh : LocData := ⟨some (JVal.int 7), none, some (JVal.str "high ctx".toList), none⟩

/-- A candidate answer with confidence 0.3. -/
def mrgA : Ans := ⟨1, "f".toList, some "vlow".toList, JVal.float (mkRat 3 10), some locLow⟩

/-- A candidate answer with confidence 0.9 and its own value and
location. -/
def mrgB : Ans := ⟨1, "f".toList, some "vhigh".toList, JVal.float (mkRat 9 10), some locHigh⟩

/-- A first candidate answer with confidence 0.0. -/
def mrgZ1 : Ans := ⟨1, "f".toList, some "z1".toList, JVal.float (mkRat 0 1), none⟩

/-- A second candidate answer with confidence 0.0 and a different
value. -/
def mrgZ2 : Ans := ⟨1, "f".toList, some "z2".toList, JVal.float (mkRat 0 1), none⟩

/-- Python > on two numeric values compares their numeric contents. -/
theorem pyGt_num {a b : JVal} {x y : ℚ} (hx : toQ a = some x) (hy : toQ b = some y) :
    pyGt a b = Except.ok (decide (y < x)) := by
  unfold pyGt
  rw [hx, hy]

/-- Python == 0 on a numeric value tests its numeric content. -/
theorem pyEqZero_num {a : JVal} {x : ℚ} (hx : toQ a = some x) :
    pyEqZero a = decide (x = 0) := by
  unfold pyEqZero
  rw [hx]

/-- C1.  Cross-chunk merge precedence: a new candidate replaces the
held one exactly when (a) nothing is held yet, or (b) its confidence
is strictly greater, or (c) its confidence is positive and the held
one's is zero; candidates with confidences 0.3 and 0.9 merge to the
0.9 one (with its value and location) in either arrival order, and two
candidates of confidence 0.0 keep the first-seen one. -/
theorem claim1_merge_precedence :
    (∀ conf : JVal, shouldKeep none conf = Except.ok true) ∧
    (∀ (e : Ans) (conf : JVal) (c ce : ℚ),
      toQ conf = some c → toQ e.confidence = some ce →
      shouldKeep (some e) conf = Except.ok (decide (ce < c ∨ (0 < c ∧ ce = 0)))) ∧
    mergeAll [[(1, mrgA)], [(1, mrgB)]] = Except.ok [(1, mrgB)] ∧
    mergeAll [[(1, mrgB)], [(1, mrgA)]] = Except.ok [(1, mrgB)] ∧
    mergeAll [[(1, mrgZ1)], [(1, mrgZ2)]] = Except.ok [(1, mrgZ1)] := by
  refine ⟨fun conf => rfl, fun e conf c ce hc hce => ?_, by decide, by decide, by decide⟩
  have h0 : toQ (JVal.int 0) = some 0 := rfl
  show (pyGt conf e.confidence >>= fun gt =>
      if gt then Except.ok true
      else pyGt conf (JVal.int 0) >>= fun gt0 =>
        if gt0 then Except.ok (pyEqZero e.confidence) else Except.ok false) = _
  rw [pyGt_num hc hce, pyGt_num hc h0, pyEqZero_num hce]
  by_cases hlt : ce < c
  · simp [hlt]
    rfl
  · by_cases hc0 : (0 : ℚ) < c
    · by_cases hz : ce = 0
      · simp [hlt, hc0, hz]
        rfl
      · simp [hlt, hc0, hz]
        rfl
    · have hno : ¬ (ce < c ∨ (0 < c ∧ ce = 0)) := by
        rintro (h1 | ⟨h2, _⟩)
        · exact hlt h1
        · exact hc0 h2
      simp [hlt, hc0, hno]
      rfl

/-- Witness for C1 at a concrete held answer and candidate
confidence. -/
theorem claim1_witness :
    shouldKeep (some mrgA) (JVal.float (mkRat 9 10)) =
      Except.ok (decide (mkRat 3 10 < mkRat 9 10 ∨ (0 < mkRat 9 10 ∧ mkRat 3 10 = 0))) :=
  claim1_merge_precedence.2.1 mrgA (JVal.float (mkRat 9 10)) (mkRat 9 10) (mkRat 3 10) rfl rfl

/-- Bind of a successful Except computation. -/
theorem exc_bind_ok {α β : Type} (a : α) (f : α → Except Unit β) :
    (Except.ok a : Except Unit α) >>= f = f a := rfl

/-- Bind of a failed Except computation. -/
theorem exc_bind_err {α β : Type} (f : α → Except Unit β) :
    (Except.error () : Except Unit α) >>= f = Except.error () := rfl

/-- An answer the loop discards with `continue` leaves the chunk fold
unchanged. -/
theorem processAnswers_skip (qs : List Question) (ft : Option Txt) (a : RawAnswer)
    (h : discardsAnswer qs a) (rest : List RawAnswer) (acc : ChunkResults) :
    processAnswers qs ft (a :: rest) acc = processAnswers qs ft rest acc := by
  rcases h with h | ⟨n, hp, hd⟩
  · simp only [processAnswers, h, exc_bind_ok]
  · simp only [processAnswers, hp, exc_bind_ok]
    by_cases hnull : a.answer = JVal.null
    · simp [hnull]
    · rcases hd with hd | hd
      · exact absurd hd hnull
      · simp [hnull, hd]

/-- An answer whose id parsing raises aborts the whole chunk fold. -/
theorem processAnswers_abort_here (qs : List Question) (ft : Option Txt) (a : RawAnswer)
    (h : abortsAnswer a) (rest : List RawAnswer) (acc : ChunkResults) :
    processAnswers qs ft (a :: rest) acc = Except.error () := by
  simp only [processAnswers, abortsAnswer.eq_1] at *
  rw [h]
  rfl

/-- An answer that survives every guard stores its coerced record in
the chunk results dict. -/
theorem processAnswers_keep (qs : List Question) (ft : Option Txt) (a : RawAnswer)
    (rest : List RawAnswer) (acc : ChunkResults) (n : ℤ) (q : Question) (loc : LocData)
    (hp : parseQNum a.id = Except.ok (some n)) (hnull : a.answer ≠ JVal.null)
    (hq : qs.find? (fun q' => q'.id = n) = some q)
    (hl : buildLoc ft a.citation = Except.ok loc) :
    processAnswers qs ft (a :: rest) acc =
      processAnswers qs ft rest
        (dset n ⟨n, q.text, some (pyStr (coerceValue q a.answer)), a.confidence,
          if loc.isEmpty then none else some loc⟩ acc) := by
  simp only [processAnswers, hp, exc_bind_ok, hnull, if_false, hq, hl]

/-- An answer that reaches a bad citation aborts the whole chunk fold. -/
theorem processAnswers_keep_badcit (qs : List Question) (ft : Option Txt) (a : RawAnswer)
    (rest : List RawAnswer) (acc : ChunkResults) (n : ℤ) (q : Question)
    (hp : parseQNum a.id = Except.ok (some n)) (hnull : a.answer ≠ JVal.null)
    (hq : qs.find? (fun q' => q'.id = n) = some q)
    (hl : buildLoc ft a.citation = Except.error ()) :
    processAnswers qs ft (a :: rest) acc = Except.error () := by
  simp only [processAnswers, hp, exc_bind_ok, hnull, if_false, hq, hl]
  rfl

/-- Removing a discarded answer anywhere in the list does not change
the chunk fold. -/
theorem processAnswers_deletion (qs : List Question) (ft : Option Txt) (a : RawAnswer)
    (h : discardsAnswer qs a) (l1 l2 : List RawAnswer) (acc : ChunkResults) :
    processAnswers qs ft (l1 ++ a :: l2) acc = processAnswers qs ft (l1 ++ l2) acc := by
  induction l1 generalizing acc with
  | nil => simpa using processAnswers_skip qs ft a h l2 acc
  | cons b l1' ih =>
    simp only [List.cons_append]
    rcases hpb : parseQNum b.id with e | qn
    · rw [processAnswers_abort_here qs ft b hpb, processAnswers_abort_here qs ft b hpb]
    · match qn with
      | none =>
        rw [processAnswers_skip qs ft b (Or.inl hpb), processAnswers_skip qs ft b (Or.inl hpb)]
        exact ih acc
      | some n =>
        by_cases hnull : b.answer = JVal.null
        · rw [processAnswers_skip qs ft b (Or.inr ⟨n, hpb, Or.inl hnull⟩),
            processAnswers_skip qs ft b (Or.inr ⟨n, hpb, Or.inl hnull⟩)]
          exact ih acc
        · rcases hf : qs.find? (fun q' => q'.id = n) with _ | q
          · rw [processAnswers_skip qs ft b (Or.inr ⟨n, hpb, Or.inr hf⟩),
              processAnswers_skip qs ft b (Or.inr ⟨n, hpb, Or.inr hf⟩)]
            exact ih acc
          · rcases hbl : buildLoc ft b.citation with e | loc
            · rw [processAnswers_keep_badcit qs ft b _ acc n q hpb hnull hf hbl,
                processAnswers_keep_badcit qs ft b _ acc n q hpb hnull hf hbl]
            · rw [processAnswers_keep qs ft b _ acc n q loc hpb hnull hf hbl,
                processAnswers_keep qs ft b _ acc n q loc hpb hnull hf hbl]
              exact ih _

/-- An aborting answer anywhere in the list empties the chunk fold. -/
theorem processAnswers_aborts (qs : List Question) (ft : Option Txt) (a : RawAnswer)
    (h : abortsAnswer a) (l1 l2 : List RawAnswer) (acc : ChunkResults) :
    processAnswers qs ft (l1 ++ a :: l2) acc = Except.error () := by
  induction l1 generalizing acc with
  | nil => simpa using processAnswers_abort_here qs ft a h l2 acc
  | cons b l1' ih =>
    simp only [List.cons_append]
    rcases hpb : parseQNum b.id with e | qn
    · exact processAnswers_abort_here qs ft b hpb _ acc
    · match qn with
      | none =>
        rw [processAnswers_skip qs ft b (Or.inl hpb)]
        exact ih acc
      | some n =>
        by_cases hnull : b.answer = JVal.null
        · rw [processAnswers_skip qs ft b (Or.inr ⟨n, hpb, Or.inl hnull⟩)]
          exact ih acc
        · rcases hf : qs.find? (fun q' => q'.id = n) with _ | q
          · rw [processAnswers_skip qs ft b (Or.inr ⟨n, hpb, Or.inr hf⟩)]
            exact ih acc
          · rcases hbl : buildLoc ft b.citation with e | loc
            · exact processAnswers_keep_badcit qs ft b _ acc n q hpb hnull hf hbl
            · rw [processAnswers_keep qs ft b _ acc n q loc hpb hnull hf hbl]
              exact ih _

/-- C8 counterexample.  The claim says an answer whose id does not
map to a submitted question is discarded while the chunk's other
answers are kept; but with the answers [id "qabc", id "q1"] the whole
chunk comes back empty — int("abc") raises inside the chunk's try
block — although the "q1" answer alone is kept. -/
theorem claim8_counterexample :
    processChunk [q1ex] none (ChunkOutcome.ok [ansBadId, ansGood]) = [] ∧
    processChunk [q1ex] none (ChunkOutcome.ok [ansGood]) ≠ [] := by decide

/-- C8 (amended).  Answers with a null value, an id that parses to an
unknown question number, or a string id not starting with "q" are
discarded while the rest of the chunk is kept; an id that raises in
int() (or a non-string id) empties the whole chunk; a kept answer is
stored with its coerced value: yesno booleans become "Yes"/"No",
yesno strings stay, and dropdown strings are canonicalised by
case-insensitive option match when one exists, else left as
returned. -/
theorem claim8_parse_coerce :
    (∀ (qs : List Question) (ft : Option Txt) (a : RawAnswer) (l1 l2 : List RawAnswer),
      discardsAnswer qs a →
      processChunk qs ft (ChunkOutcome.ok (l1 ++ a :: l2)) =
        processChunk qs ft (ChunkOutcome.ok (l1 ++ l2))) ∧
    (∀ (qs : List Question) (ft : Option Txt) (a : RawAnswer) (l1 l2 : List RawAnswer),
      abortsAnswer a → processChunk qs ft (ChunkOutcome.ok (l1 ++ a :: l2)) = []) ∧
    (∀ (q : Question) (b : Bool), q.qtype = some "yesno".toList →
      coerceValue q (JVal.bool b) = JVal.str (if b then "Yes".toList else "No".toList)) ∧
    (∀ (q : Question) (s : Txt), q.qtype = some "yesno".toList →
      coerceValue q (JVal.str s) = JVal.str s) ∧
    (∀ (q : Question) (s : Txt) (o : Txt), q.qtype = some "dropdown".toList →
      s ∉ q.options → q.options ≠ [] →
      q.options.find? (fun o' => pyLower o' = pyLower s) = some o → o ≠ [] →
      coerceValue q (JVal.str s) = JVal.str o) ∧
    (∀ (q : Question) (s : Txt), q.qtype = some "dropdown".toList →
      (s ∈ q.options ∨ q.options.find? (fun o' => pyLower o' = pyLower s) = none) →
      coerceValue q (JVal.str s) = JVal.str s) ∧
    (∀ (qs : List Question) (ft : Option Txt) (a : RawAnswer) (rest : List RawAnswer)
      (acc : ChunkResults) (n : ℤ) (q : Question) (loc : LocData),
      parseQNum a.id = Except.ok (some n) → a.answer ≠ JVal.null →
      qs.find? (fun q' => q'.id = n) = some q → buildLoc ft a.citation = Except.ok loc →
      processAnswers qs ft (a :: rest) acc =
        processAnswers qs ft rest
          (dset n ⟨n, q.text, some (pyStr (coerceValue q a.answer)), a.confidence,
            if loc.isEmpty then none else some loc⟩ acc)) := by
  have hyesno : "yesno".toList ≠ "dropdown".toList := by decide
  refine ⟨?_, ?_, ?_, ?_, ?_, ?_, processAnswers_keep⟩
  · intro qs ft a l1 l2 h
    simp only [processChunk, processAnswers_deletion qs ft a h l1 l2 []]
  · intro qs ft a l1 l2 h
    simp only [processChunk, processAnswers_aborts qs ft a h l1 l2 []]
  · intro q b h
    simp [coerceValue, h]
  · intro q s h
    simp [coerceValue, h]
  · intro q s o hd hnotin hne hfind ho
    have hqt : ¬ q.qtype = some "yesno".toList := by
      rw [hd]
      intro hcon
      exact hyesno (Option.some.inj hcon).symm
    simp [coerceValue, hqt, hd, hnotin, hne, hfind, ho]
  · intro q s hd hcase
    have hqt : ¬ q.qtype = some "yesno".toList := by
      rw [hd]
      intro hcon
      exact hyesno (Option.some.inj hcon).symm
    rcases hcase with hin | hnone
    · simp [coerceValue, hqt, hd, hin]
    · by_cases hinop : s ∈ q.options
      · simp [coerceValue, hqt, hd, hinop]
      · simp [coerceValue, hqt, hd, hinop, hnone]

/-- Witness for C8: a parsing-but-unknown id is dropped while the rest
of the chunk is kept, a malformed "qabc" id empties the chunk, and a
boolean yesno answer coerces to "Yes". -/
theorem claim8_witness :
    processChunk [q1ex] none (ChunkOutcome.ok [ansUnknown, ansGood]) =
      processChunk [q1ex] none (ChunkOutcome.ok [ansGood]) ∧
    processChunk [q1ex] none (ChunkOutcome.ok [ansBadId, ansGood]) = [] ∧
    coerceValue qYesno (JVal.bool true) = JVal.str (if true then "Yes".toList else "No".toList) := by
  refine ⟨?_, ?_, claim8_parse_coerce.2.2.1 qYesno true rfl⟩
  · exact claim8_parse_coerce.1 [q1ex] none ansUnknown [] [ansGood]
      (Or.inr ⟨9, rfl, Or.inr rfl⟩)
  · exact claim8_parse_coerce.2.1 [q1ex] none ansBadId [] [ansGood] rfl

/-- Membership after a dict update comes from the new pair or the old
dict. -/
theorem mem_dset : ∀ (l : ChunkResults) (k : ℤ) (v : Ans) (p : ℤ × Ans),
    p ∈ dset k v l → p = (k, v) ∨ p ∈ l := by
  intro l
  induction l with
  | nil =>
    intro k v p h
    simp only [dset, List.mem_singleton] at h
    exact Or.inl h
  | cons q rest ih =>
    intro k v p h
    obtain ⟨k', v'⟩ := q
    by_cases hk : k' = k
    · simp only [dset, if_pos hk, List.mem_cons] at h
      rcases h with h | h
      · exact Or.inl h
      · exact Or.inr (List.mem_cons_of_mem _ h)
    · simp only [dset, if_neg hk, List.mem_cons] at h
      rcases h with h | h
      · exact Or.inr (by simp [h])
      · rcases ih k v p h with h' | h'
        · exact Or.inl h'
        · exact Or.inr (List.mem_cons_of_mem _ h')

/-- A successful dict lookup exhibits a member. -/
theorem dget_mem : ∀ (l : ChunkResults) (k : ℤ) (a : Ans),
    dget k l = some a → (k, a) ∈ l := by
  intro l
  induction l with
  | nil => intro k a h; simp [dget] at h
  | cons q rest ih =>
    intro k a h
    obtain ⟨k', v'⟩ := q
    by_cases hk : k' = k
    · simp only [dget, if_pos hk, Option.some.injEq] at h
      subst hk
      simp [h]
    · simp only [dget, if_neg hk] at h
      exact List.mem_cons_of_mem _ (ih k a h)

/-- shouldKeep cannot raise when the new confidence is numeric and
every held confidence is numeric. -/
theorem shouldKeep_num_ok {conf : JVal} {c : ℚ} (hc : toQ conf = some c)
    (eo : Option Ans) (he : ∀ e, eo = some e → (toQ e.confidence).isSome) :
    ∃ b, shouldKeep eo conf = Except.ok b := by
  match eo with
  | none => exact ⟨true, rfl⟩
  | some e =>
    obtain ⟨ce, hce⟩ := Option.isSome_iff_exists.mp (he e rfl)
    show ∃ b, (pyGt conf e.confidence >>= fun gt =>
      if gt then Except.ok true
      else pyGt conf (JVal.int 0) >>= fun gt0 =>
        if gt0 then Except.ok (pyEqZero e.confidence) else Except.ok false) = Except.ok b
    rw [pyGt_num hc hce, pyGt_num hc (rfl : toQ (JVal.int 0) = some 0)]
    cases hd1 : decide (ce < c)
    · cases hd2 : decide ((0 : ℚ) < c)
      · exact ⟨false, rfl⟩
      · exact ⟨pyEqZero e.confidence, rfl⟩
    · exact ⟨true, rfl⟩

/-- One merge step of a good pair into a good state succeeds and
keeps the state good. -/
theorem mergeStep_ok (all : ChunkResults) (p : ℤ × Ans) (hall : GoodRes all)
    (hp : (toQ (p.2).confidence).isSome ∧ (p.2).question_id = p.1) :
    ∃ all', mergeStep all p = Except.ok all' ∧ GoodRes all' := by
  obtain ⟨c, hc⟩ := Option.isSome_iff_exists.mp hp.1
  obtain ⟨b, hb⟩ := shouldKeep_num_ok hc (dget p.1 all)
    (fun e he => (hall (p.1, e) (dget_mem all p.1 e he)).1)
  refine ⟨if b then dset p.1 p.2 all else all, ?_, ?_⟩
  · simp only [mergeStep, hb, exc_bind_ok]
    cases b
    · simp
    · simp
  · cases b
    · simpa using hall
    · simp only [if_pos rfl]
      intro r hr
      rcases mem_dset all p.1 p.2 r hr with h | h
      · subst h
        exact hp
      · exact hall r h

/-- Folding one chunk's good results into a good state succeeds and
keeps the state good. -/
theorem mergeChunk_ok : ∀ (cr : ChunkResults) (all : ChunkResults),
    GoodRes cr → GoodRes all →
    ∃ all', cr.foldlM mergeStep all = Except.ok all' ∧ GoodRes all' := by
  intro cr
  induction cr with
  | nil => exact fun all _ hall => ⟨all, rfl, hall⟩
  | cons p cr' ih =>
    intro all hcr hall
    obtain ⟨all1, h1, hg1⟩ := mergeStep_ok all p hall (hcr p (List.mem_cons_self p cr'))
    obtain ⟨all2, h2, hg2⟩ := ih all1 (fun r hr => hcr r (List.mem_cons_of_mem _ hr)) hg1
    exact ⟨all2, by simp [List.foldlM_cons, h1, exc_bind_ok, h2], hg2⟩

/-- Merging any list of good chunk results succeeds with a good
merged state. -/
theorem mergeAll_ok (results : List ChunkResults) (h : ∀ cr ∈ results, GoodRes cr) :
    ∃ m, mergeAll results = Except.ok m ∧ GoodRes m := by
  suffices haux : ∀ (rs : List ChunkResults) (all : ChunkResults),
      (∀ cr ∈ rs, GoodRes cr) → GoodRes all →
      ∃ m, rs.foldlM (fun a cr => cr.foldlM mergeStep a) all = Except.ok m ∧ GoodRes m by
    exact haux results [] h (by intro p hp; simp at hp)
  intro rs
  induction rs with
  | nil => exact fun all _ hall => ⟨all, rfl, hall⟩
  | cons cr rs' ih =>
    intro all hrs hall
    obtain ⟨all1, h1, hg1⟩ := mergeChunk_ok cr all (hrs cr (List.mem_cons_self cr rs')) hall
    obtain ⟨m, h2, hg2⟩ := ih all1 (fun r hr => hrs r (List.mem_cons_of_mem _ hr)) hg1
    exact ⟨m, by simp [List.foldlM_cons, h1, exc_bind_ok, h2], hg2⟩

/-- Every record stored by the answers loop is keyed by its own
question_id. -/
theorem processAnswers_qid : ∀ (l : List RawAnswer) (qs : List Question) (ft : Option Txt)
    (acc r : ChunkResults), (∀ p ∈ acc, (p.2).question_id = p.1) →
    processAnswers qs ft l acc = Except.ok r → ∀ p ∈ r, (p.2).question_id = p.1 := by
  intro l
  induction l with
  | nil =>
    intro qs ft acc r hacc h
    simp only [processAnswers, Except.ok.injEq] at h
    subst h
    exact hacc
  | cons b l' ih =>
    intro qs ft acc r hacc h
    rcases hpb : parseQNum b.id with e | qn
    · rw [processAnswers_abort_here qs ft b hpb] at h
      exact absurd h (by simp)
    · match qn with
      | none =>
        rw [processAnswers_skip qs ft b (Or.inl hpb)] at h
        exact ih qs ft acc r hacc h
      | some n =>
        by_cases hnull : b.answer = JVal.null
        · rw [processAnswers_skip qs ft b (Or.inr ⟨n, hpb, Or.inl hnull⟩)] at h
          exact ih qs ft acc r hacc h
        · rcases hf : qs.find? (fun q' => q'.id = n) with _ | q
          · rw [processAnswers_skip qs ft b (Or.inr ⟨n, hpb, Or.inr hf⟩)] at h
            exact ih qs ft acc r hacc h
          · rcases hbl : buildLoc ft b.citation with e | loc
            · rw [processAnswers_keep_badcit qs ft b _ acc n q hpb hnull hf hbl] at h
              exact absurd h (by simp)
            · rw [processAnswers_keep qs ft b _ acc n q loc hpb hnull hf hbl] at h
              refine ih qs ft _ r ?_ h
              intro p hp
              rcases mem_dset acc n _ p hp with h' | h'
              · subst h'
                rfl
              · exact hacc p h'

/-- A chunk whose kept confidences are numeric yields a good result
set. -/
theorem processChunk_good (qs : List Question) (ft : Option Txt) (oc : ChunkOutcome)
    (h : ∀ p ∈ processChunk qs ft oc, (toQ (p.2).confidence).isSome) :
    GoodRes (processChunk qs ft oc) := by
  intro p hp
  refine ⟨h p hp, ?_⟩
  match oc with
  | ChunkOutcome.fail => simp [processChunk] at hp
  | ChunkOutcome.ok answers =>
    rcases hr : processAnswers qs ft answers [] with e | r
    · simp [processChunk, hr] at hp
    · have := processAnswers_qid answers qs ft [] r (by intro x hx; simp at hx) hr
      simp only [processChunk, hr] at hp
      exact this p hp

/-- C2 counterexample.  The claim says the bulk aggregator returns
normally for every outcome of the per-chunk model calls; but when a
second chunk answers the same question with a JSON-null confidence,
the merge evaluates Python None > 1.0, which raises TypeError outside
every try block, so the whole call raises. -/
theorem claim2_counterexample :
    bulkAggregate [q1ex] none
      [ChunkOutcome.ok [ansGood], ChunkOutcome.ok [ansNullConf]] = Except.error () := by
  decide

/-- C2 (amended).  Provided every kept per-chunk confidence is
numeric, the aggregator returns normally with exactly one record per
submitted question, in submitted order; position i holds the merged
answer for question i when one survives, else the record with null
value, confidence 0.0 and null location. -/
theorem claim2_order_preservation (qs : List Question) (ft : Option Txt)
    (outcomes : List ChunkOutcome)
    (hnum : ∀ oc ∈ outcomes, ∀ p ∈ processChunk qs ft oc, (toQ (p.2).confidence).isSome) :
    ∃ m, mergeAll (outcomes.map (processChunk qs ft)) = Except.ok m ∧
      bulkAggregate qs ft outcomes = Except.ok (formatResults qs m) ∧
      (formatResults qs m).length = qs.length ∧
      (∀ (i : ℕ) (q : Question), qs.get? i = some q →
        (formatResults qs m).get? i =
          some (match dget q.id m with
                | some a => a
                | none => defaultAns q)) ∧
      (∀ (i : ℕ) (q : Question), qs.get? i = some q → dget q.id m = none →
        (formatResults qs m).get? i = some (defaultAns q)) ∧
      (∀ (i : ℕ) (q : Question) (a : Ans), qs.get? i = some q → dget q.id m = some a →
        (formatResults qs m).get? i = some a ∧ a.question_id = q.id) := by
  obtain ⟨m, hm, hgood⟩ := mergeAll_ok (outcomes.map (processChunk qs ft)) (by
    intro cr hcr
    obtain ⟨oc, hoc, rfl⟩ := List.mem_map.mp hcr
    exact processChunk_good qs ft oc (hnum oc hoc))
  have hget : ∀ (i : ℕ) (q : Question), qs.get? i = some q →
      (formatResults qs m).get? i =
        some (match dget q.id m with
              | some a => a
              | none => defaultAns q) := by
    intro i q hq
    rw [List.get?_eq_getElem?] at hq ⊢
    rw [formatResults, List.getElem?_map, hq]
    rfl
  refine ⟨m, hm, ?_, ?_, hget, ?_, ?_⟩
  · simp only [bulkAggregate, hm, exc_bind_ok]
  · simp [formatResults]
  · intro i q hq hnone
    rw [hget i q hq, hnone]
  · intro i q a hq hsome
    refine ⟨by rw [hget i q hq, hsome], ?_⟩
    exact ((hgood (q.id, a) (dget_mem m q.id a hsome)).2 : a.question_id = q.id)

/-- Witness for C2 at a concrete one-question, one-chunk input. -/
theorem claim2_witness :
    ∃ m, mergeAll ([ChunkOutcome.ok [ansGood]].map (processChunk [q1ex] none)) = Except.ok m ∧
      bulkAggregate [q1ex] none [ChunkOutcome.ok [ansGood]] = Except.ok (formatResults [q1ex] m) ∧
      (formatResults [q1ex] m).length = [q1ex].length ∧
      (∀ (i : ℕ) (q : Question), [q1ex].get? i = some q →
        (formatResults [q1ex] m).get? i =
          some (match dget q.id m with
                | some a => a
                | none => defaultAns q)) ∧
      (∀ (i : ℕ) (q : Question), [q1ex].get? i = some q → dget q.id m = none →
        (formatResults [q1ex] m).get? i = some (defaultAns q)) ∧
      (∀ (i : ℕ) (q : Question) (a : Ans), [q1ex].get? i = some q → dget q.id m = some a →
        (formatResults [q1ex] m).get? i = some a ∧ a.question_id = q.id) :=
  claim2_order_preservation [q1ex] none [ChunkOutcome.ok [ansGood]] (by decide)

/-- C6 counterexample.  The claim says the single-field extractor
returns the pair from the first chunk whose response yields a non-null
value; but a chunk returning the empty string — non-null yet falsy —
is passed over (`if value:`), and the loop answers from a later
chunk. -/
theorem claim6_counterexample :
    extractFieldValue none none [FieldResp.ok frEmpty, FieldResp.ok frHit] =
      (JVal.str "x".toList, LocOut.nullV) ∧
    frEmpty.value ≠ JVal.null := by decide

/-- C6 (amended).  The single-field extractor iterates chunks
sequentially and returns the pair from the first chunk whose response
yields a truthy value, never consulting later chunks; a prefix of
failed or non-hit chunks is irrelevant, and when every chunk fails or
yields no truthy value the result is (null, null) — no exception
escapes.  A response hits exactly when its value is truthy, except
that a truthy line_to_location_map turns a non-dict location into a
skip (AttributeError inside the try); with a falsy map — the /extract
endpoint passes None — a truthy value with a non-dict location is
returned, its location being the raw value when truthy and null
otherwise. -/
theorem claim6_first_hit :
    (∀ (m : Option (List (ℤ × ℤ))) (ft : Option Txt) (pre rest : List FieldResp),
      (∀ r ∈ pre, fieldSkips m ft r) →
      extractFieldValue m ft (pre ++ rest) = extractFieldValue m ft rest) ∧
    (∀ (m : Option (List (ℤ × ℤ))) (ft : Option Txt) (fr : FieldResult)
      (out : JVal × LocOut) (rest : List FieldResp),
      processFieldResp m ft fr = some out →
      extractFieldValue m ft (FieldResp.ok fr :: rest) = out) ∧
    (∀ (m : Option (List (ℤ × ℤ))) (ft : Option Txt) (l : List FieldResp),
      (∀ r ∈ l, fieldSkips m ft r) →
      extractFieldValue m ft l = (JVal.null, LocOut.nullV)) ∧
    (∀ (m : Option (List (ℤ × ℤ))) (ft : Option Txt) (fr : FieldResult),
      (∃ out, processFieldResp m ft fr = some out) ↔
        (pyTruthy fr.value = true ∧
          ¬(mapTruthy m = true ∧ ∃ v, fr.location = LocVal.nonDict v))) ∧
    (∀ (m : Option (List (ℤ × ℤ))) (ft : Option Txt) (fr : FieldResult) (v : JVal),
      mapTruthy m = false → fr.location = LocVal.nonDict v →
      pyTruthy fr.value = true →
      processFieldResp m ft fr =
        some (fr.value, if pyTruthy v then LocOut.rawV v else LocOut.nullV)) ∧
    (∀ (m : Option (List (ℤ × ℤ))) (ft : Option Txt) (fr : FieldResult) (v : JVal),
      mapTruthy m = true → fr.location = LocVal.nonDict v →
      processFieldResp m ft fr = none) := by
  have hskip : ∀ (m : Option (List (ℤ × ℤ))) (ft : Option Txt) (pre rest : List FieldResp),
      (∀ r ∈ pre, fieldSkips m ft r) →
      extractFieldValue m ft (pre ++ rest) = extractFieldValue m ft rest := by
    intro m ft pre
    induction pre with
    | nil => intro rest _; rfl
    | cons r pre' ih =>
      intro rest hall
      rcases hall r (List.mem_cons_self r pre') with hf | ⟨fr, hfr, hnone⟩
      · subst hf
        simpa [extractFieldValue] using ih rest (fun x hx => hall x (List.mem_cons_of_mem _ hx))
      · subst hfr
        simp only [List.cons_append, extractFieldValue, hnone]
        exact ih rest (fun x hx => hall x (List.mem_cons_of_mem _ hx))
  refine ⟨hskip, ?_, ?_, ?_, ?_, ?_⟩
  · intro m ft fr out rest h
    simp only [extractFieldValue, h]
  · intro m ft l hall
    have := hskip m ft l [] hall
    simpa using this
  · intro m ft fr
    match hloc : fr.location with
    | LocVal.nonDict v =>
      by_cases hm : mapTruthy m
      · constructor
        · rintro ⟨out, hout⟩
          simp [processFieldResp, hloc, hm] at hout
        · rintro ⟨_, hno⟩
          exact absurd ⟨hm, v, rfl⟩ hno
      · rw [Bool.not_eq_true] at hm
        constructor
        · rintro ⟨out, hout⟩
          simp only [processFieldResp, hloc, hm, Bool.false_eq_true, if_false] at hout
          by_cases ht : pyTruthy fr.value
          · exact ⟨ht, by rintro ⟨hmt, -⟩; rw [hm] at hmt; exact Bool.false_ne_true hmt⟩
          · simp [ht] at hout
        · rintro ⟨ht, -⟩
          exact ⟨(fr.value, if pyTruthy v then LocOut.rawV v else LocOut.nullV),
            by simp [processFieldResp, hloc, hm, ht]⟩
    | LocVal.absent =>
      constructor
      · rintro ⟨out, hout⟩
        simp only [processFieldResp, hloc] at hout
        by_cases ht : pyTruthy fr.value
        · exact ⟨ht, by rintro ⟨-, v, hv⟩; exact LocVal.noConfusion hv⟩
        · simp [ht] at hout
      · rintro ⟨ht, -⟩
        exact ⟨(fr.value, LocOut.nullV), by simp [processFieldResp, hloc, ht, pdGet]⟩
    | LocVal.dictV d =>
      constructor
      · rintro ⟨out, hout⟩
        simp only [processFieldResp, hloc] at hout
        by_cases ht : pyTruthy fr.value
        · exact ⟨ht, by rintro ⟨-, v, hv⟩; exact LocVal.noConfusion hv⟩
        · simp [ht] at hout
      · rintro ⟨ht, -⟩
        simp only [processFieldResp, hloc, ht, if_true]
        exact ⟨_, rfl⟩
  · intro m ft fr v hm hloc ht
    simp [processFieldResp, hloc, hm, ht]
  · intro m ft fr v hm hloc
    simp [processFieldResp, hloc, hm]

/-- Witness for C6: a failed chunk followed by an empty-valued chunk
is skipped, the first truthy chunk answers, an all-miss run yields the
null pair, and the null-location response is returned as (value, null)
under the falsy map but skipped under the truthy map. -/
theorem claim6_witness :
    extractFieldValue none none
        ([FieldResp.fail, FieldResp.ok frEmpty] ++ [FieldResp.ok frNullLoc]) =
      extractFieldValue none none [FieldResp.ok frNullLoc] ∧
    extractFieldValue none none [FieldResp.ok frNullLoc] =
      (JVal.str "x".toList, LocOut.nullV) ∧
    extractFieldValue none none [FieldResp.fail, FieldResp.ok frEmpty] =
      (JVal.null, LocOut.nullV) ∧
    processFieldResp none none frNullLoc =
      some (frNullLoc.value, if pyTruthy JVal.null then LocOut.rawV JVal.null
        else LocOut.nullV) ∧
    processFieldResp mapEx none frNullLoc = none := by
  refine ⟨?_, ?_, ?_, ?_, ?_⟩
  · exact claim6_first_hit.1 none none [FieldResp.fail, FieldResp.ok frEmpty]
      [FieldResp.ok frNullLoc]
      (by
        intro r hr
        simp only [List.mem_cons, List.not_mem_nil, or_false] at hr
        rcases hr with rfl | rfl
        · exact Or.inl rfl
        · exact Or.inr ⟨frEmpty, rfl, by decide⟩)
  · exact claim6_first_hit.2.1 none none frNullLoc (JVal.str "x".toList, LocOut.nullV) []
      (by decide)
  · exact claim6_first_hit.2.2.1 none none [FieldResp.fail, FieldResp.ok frEmpty]
      (by
        intro r hr
        simp only [List.mem_cons, List.not_mem_nil, or_false] at hr
        rcases hr with rfl | rfl
        · exact Or.inl rfl
        · exact Or.inr ⟨frEmpty, rfl, by decide⟩)
  · exact claim6_first_hit.2.2.2.2.1 none none frNullLoc JVal.null (by decide) rfl (by decide)
  · exact claim6_first_hit.2.2.2.2.2 mapEx none frNullLoc JVal.null (by decide) rfl

/-- colA has 1001 characters. -/
theorem colA_len : colA.length = 1001 := by
  rw [colA, List.length_append, List.length_replicate]
  rfl

/-- colB has 1001 characters. -/
theorem colB_len : colB.length = 1001 := by
  rw [colB, List.length_append, List.length_replicate]
  rfl

/-- colA and colB share their first 1000 characters. -/
theorem col_take : colA.take 1000 = colB.take 1000 := by
  rw [colA, colB, List.take_left' (List.length_replicate 1000 'x'),
    List.take_left' (List.length_replicate 1000 'x')]

/-- colA and colB are different texts. -/
theorem col_ne : colA ≠ colB := by
  intro h
  have hd := congrArg (List.drop 1000) h
  rw [colA, colB, List.drop_left' (List.length_replicate 1000 'x'),
    List.drop_left' (List.length_replicate 1000 'x')] at hd
  exact absurd (List.head_eq_of_cons_eq hd) (by decide)

/-- colA and colB produce the same cache key: their hash inputs agree,
so the source's md5-based keys agree too. -/
theorem key_eq : getCacheKey colB 2000 0 "e".toList = getCacheKey colA 2000 0 "e".toList := by
  simp only [getCacheKey, colA_len, colB_len, col_take]

/-- colA fits the 2000-token budget, so chunk_document returns it as a
single chunk. -/
theorem chunkDocument_colA :
    chunkDocument 100 colA 2000 0 (tokLenOf "e".toList) = ⟨[colA], [], true⟩ := by
  rw [chunkDocument, if_pos]
  show colA.length ≤ 2000
  rw [colA_len]
  norm_num

/-- colB fits the 2000-token budget, so chunk_document returns it as a
single chunk. -/
theorem chunkDocument_colB :
    chunkDocument 100 colB 2000 0 (tokLenOf "e".toList) = ⟨[colB], [], true⟩ := by
  rw [chunkDocument, if_pos]
  show colB.length ≤ 2000
  rw [colB_len]
  norm_num

/-- A successful cache lookup exhibits a member. -/
theorem cacheLookup_mem : ∀ (st : CacheState) (k : CacheKey) (v : List Txt),
    cacheLookup k st = some v → (k, v) ∈ st := by
  intro st
  induction st with
  | nil => intro k v h; simp [cacheLookup] at h
  | cons p rest ih =>
    intro k v h
    obtain ⟨k', v'⟩ := p
    by_cases hk : k' = k
    · simp only [cacheLookup, if_pos hk, Option.some.injEq] at h
      subst hk
      simp [h]
    · simp only [cacheLookup, if_neg hk] at h
      exact List.mem_cons_of_mem _ (ih k v h)

/-- Cache lookup over an append searches left to right. -/
theorem cacheLookup_append (k : CacheKey) : ∀ (l1 l2 : CacheState),
    cacheLookup k (l1 ++ l2) =
      match cacheLookup k l1 with
      | some v => some v
      | none => cacheLookup k l2 := by
  intro l1 l2
  induction l1 with
  | nil => rfl
  | cons p rest ih =>
    obtain ⟨k', v'⟩ := p
    by_cases hk : k' = k
    · simp [cacheLookup, if_pos hk]
    · simp only [List.cons_append, cacheLookup, if_neg hk]
      exact ih

/-- C5 counterexample.  The claim says chunk_document_cached is a pure
function of its arguments under every prior cache state; but after a
call on colA, a call on colB — a different text sharing colA's first
1000 characters and length, hence its fingerprint — returns colA's
chunk list instead of chunk_document(colB) = [colB]. -/
theorem claim5_counterexample :
    (chunkDocumentCached tokLenOf 100
        ((chunkDocumentCached tokLenOf 100 [] colA 2000 0 "e".toList).2)
        colB 2000 0 "e".toList).1 = [colA] ∧
    (chunkDocument 100 colB 2000 0 (tokLenOf "e".toList)).chunks = [colB] ∧
    colA ≠ colB := by
  refine ⟨?_, by rw [chunkDocument_colB], col_ne⟩
  have h1 : chunkDocumentCached tokLenOf 100 [] colA 2000 0 "e".toList =
      ([colA], [(getCacheKey colA 2000 0 "e".toList, [colA])]) := by
    rw [chunkDocumentCached]
    simp only [cacheLookup, chunkDocument_colA, List.length_nil]
    norm_num
  rw [h1, chunkDocumentCached]
  simp only [cacheLookup, key_eq, if_pos]

/-- C5 (amended).  Provided every cache entry whose key equals the
arguments' fingerprint was stored for these exact arguments,
chunk_document_cached returns exactly the uncached chunk_document
result, and an immediately repeated identical call returns the same
list.  Without the proviso the fingerprint (first 1000 characters +
length + parameters) collides for distinct texts and the cached call
returns another text's chunks. -/
theorem claim5_cache_correct (tokOf : Txt → Txt → ℕ) (fuel : ℕ) (st : CacheState)
    (text : Txt) (size overlap : ℕ) (enc : Txt)
    (h : ∀ p ∈ st, p.1 = getCacheKey text size overlap enc →
      p.2 = (chunkDocument fuel text size overlap (tokOf enc)).chunks) :
    (chunkDocumentCached tokOf fuel st text size overlap enc).1 =
      (chunkDocument fuel text size overlap (tokOf enc)).chunks ∧
    (chunkDocumentCached tokOf fuel
        (chunkDocumentCached tokOf fuel st text size overlap enc).2
        text size overlap enc).1 =
      (chunkDocumentCached tokOf fuel st text size overlap enc).1 := by
  have hsub : ∀ p : CacheKey × List Txt,
      p ∈ (if 10 ≤ st.length then st.tail else st) → p ∈ st := by
    intro p hp
    by_cases hlen : 10 ≤ st.length
    · rw [if_pos hlen] at hp
      exact List.mem_of_mem_tail hp
    · rwa [if_neg hlen] at hp
  rcases hlk : cacheLookup (getCacheKey text size overlap enc) st with _ | v
  · constructor
    · simp only [chunkDocumentCached, hlk]
    · simp only [chunkDocumentCached, hlk]
      rw [cacheLookup_append]
      rcases hlk2 : cacheLookup (getCacheKey text size overlap enc)
          (if 10 ≤ st.length then st.tail else st) with _ | v2
      · simp [cacheLookup]
      · simp only
        exact (h _ (hsub _ (cacheLookup_mem _ _ _ hlk2)) rfl)
  · have hv : v = (chunkDocument fuel text size overlap (tokOf enc)).chunks :=
      h _ (cacheLookup_mem st _ v hlk) rfl
    constructor
    · simp only [chunkDocumentCached, hlk, hv]
    · simp only [chunkDocumentCached, hlk]

/-- Witness for C5 starting from the empty cache. -/
theorem claim5_witness :
    (chunkDocumentCached tokLenOf 100 [] colA 2000 0 "e".toList).1 =
      (chunkDocument 100 colA 2000 0 (tokLenOf "e".toList)).chunks ∧
    (chunkDocumentCached tokLenOf 100
        (chunkDocumentCached tokLenOf 100 [] colA 2000 0 "e".toList).2
        colA 2000 0 "e".toList).1 =
      (chunkDocumentCached tokLenOf 100 [] colA 2000 0 "e".toList).1 :=
  claim5_cache_correct tokLenOf 100 [] colA 2000 0 "e".toList
    (by intro p hp; simp at hp)

/-- From cursor position 2 on badText, one iteration returns the
cursor to position 2: the window is [2, 10), the pull-back lands at 6,
and the line-start snap jumps back to just after the newline at
index 1. -/
theorem badText_step2 : (chunkIter badText 2 1 List.length 2).nextStart = 2 := by decide

/-- The first iteration on badText moves the cursor from 0 to 2. -/
theorem badText_step0 : (chunkIter badText 2 1 List.length 0).nextStart = 2 := by decide

/-- From position 2 the loop never exits, whatever the fuel. -/
theorem badText_loop2 : ∀ fuel : ℕ, (chunkLoop badText 2 1 List.length fuel 2).2 = false := by
  intro fuel
  induction fuel with
  | zero => rfl
  | succ f ih =>
    show (chunkLoop badText 2 1 List.length (f + 1) 2).2 = false
    rw [chunkLoop, if_pos (by decide : (2 : ℕ) < badText.length)]
    show (chunkLoop badText 2 1 List.length f
      (chunkIter badText 2 1 List.length 2).nextStart).2 = false
    rw [badText_step2]
    exact ih

/-- C10.  The claim says the cursor loop terminates for every text,
every chunkSizeTokens ≥ 1 and every overlapTokens ≥ 0; but on badText
with size 2 and overlap 1 (one token per character) the loop revisits
start = 2 forever, so no amount of fuel completes it — the source's
while-loop never exits. -/
theorem claim10_nontermination :
    ∀ fuel : ℕ, (chunkDocument fuel badText 2 1 List.length).completed = false := by
  intro fuel
  rw [chunkDocument, if_neg (by decide : ¬ List.length badText ≤ 2)]
  show (chunkLoop badText 2 1 List.length fuel 0).2 = false
  match fuel with
  | 0 => rfl
  | f + 1 =>
    rw [chunkLoop, if_pos (by decide : (0 : ℕ) < badText.length)]
    show (chunkLoop badText 2 1 List.length f
      (chunkIter badText 2 1 List.length 0).nextStart).2 = false
    rw [badText_step0]
    exact badText_loop2 f

/-- Unfolding of splitlines at a non-terminator head character. -/
theorem splitlines_cons_nb (c : Char) (rest : Txt) (hc : isLineBreakChar c = false) :
    splitlines (c :: rest) =
      match splitlines rest with
      | [] => [[c]]
      | l :: ls => (c :: l) :: ls := by
  cases rest with
  | nil => rw [splitlines.eq_2, if_neg (by simp [hc])]
  | cons c2 rest2 => rw [splitlines.eq_3, if_neg (by simp [hc])]

/-- splitlines of a single terminator character. -/
theorem splitlines_br_nil (c : Char) (hc : isLineBreakChar c = true) :
    splitlines [c] = [[]] := by
  rw [splitlines.eq_2, if_pos hc]

/-- Unfolding of splitlines at a terminator head followed by more
text. -/
theorem splitlines_br_cons (c c2 : Char) (rest2 : Txt) (hc : isLineBreakChar c = true) :
    splitlines (c :: c2 :: rest2) =
      if c = '\r' && c2 = '\n' then [] :: splitlines rest2
      else [] :: splitlines (c2 :: rest2) := by
  rw [splitlines.eq_3, if_pos hc]

/-- splitlines of a non-empty string is non-empty. -/
theorem splitlines_ne_nil : ∀ (s : Txt), s ≠ [] → splitlines s ≠ [] := by
  intro s hs
  match s, hs with
  | c :: rest, _ =>
    by_cases hc : isLineBreakChar c = true
    · cases rest with
      | nil => rw [splitlines_br_nil c hc]; simp
      | cons c2 rest2 =>
        rw [splitlines_br_cons c c2 rest2 hc]
        by_cases hp : (c = '\r' && c2 = '\n') = true
        · simp [hp]
        · simp [hp]
    · rw [splitlines_cons_nb c rest (by simpa using hc)]
      rcases h : splitlines rest with _ | ⟨l, ls⟩
      · simp
      · simp

/-- Every line produced by splitlines contains no terminator
character. -/
theorem splitlines_clean : ∀ (s : Txt), ∀ l ∈ splitlines s, noBreak l = true := by
  intro s
  induction s using splitlines.induct with
  | case1 => intro l hl; simp [splitlines.eq_1] at hl
  | case2 c hc =>
    intro l hl
    rw [splitlines_br_nil c hc] at hl
    simp only [List.mem_singleton] at hl
    subst hl
    rfl
  | case3 c hc c2 rest2 hp ih =>
    intro l hl
    rw [splitlines_br_cons c c2 rest2 hc, if_pos hp] at hl
    rcases List.mem_cons.mp hl with rfl | hl'
    · rfl
    · exact ih l hl'
  | case4 c hc c2 rest2 hp ih =>
    intro l hl
    rw [splitlines_br_cons c c2 rest2 hc, if_neg hp] at hl
    rcases List.mem_cons.mp hl with rfl | hl'
    · rfl
    · exact ih l hl'
  | case5 c rest hc hrest ih =>
    intro l hl
    rw [splitlines_cons_nb c rest (by simpa using hc), hrest] at hl
    simp only [List.mem_singleton] at hl
    subst hl
    simp [noBreak, hc]
  | case6 c rest hc l0 ls hrest ih =>
    intro l hl
    rw [splitlines_cons_nb c rest (by simpa using hc), hrest] at hl
    rcases List.mem_cons.mp hl with rfl | hl'
    · have h0 : noBreak l0 = true := ih l0 (by rw [hrest]; exact List.mem_cons_self _ _)
      simp only [noBreak, List.all_cons, Bool.and_eq_true, decide_eq_true_eq] at h0 ⊢
      exact ⟨by simpa using hc, h0⟩
    · exact ih l (by rw [hrest]; exact List.mem_cons_of_mem _ hl')

/-- Every character of a splitlines line is a character of the
input. -/
theorem splitlines_chars : ∀ (s : Txt), ∀ l ∈ splitlines s, ∀ c ∈ l, c ∈ s := by
  intro s
  induction s using splitlines.induct with
  | case1 => intro l hl; simp [splitlines.eq_1] at hl
  | case2 c hc =>
    intro l hl
    rw [splitlines_br_nil c hc] at hl
    simp only [List.mem_singleton] at hl
    subst hl
    intro x hx
    simp at hx
  | case3 c hc c2 rest2 hp ih =>
    intro l hl
    rw [splitlines_br_cons c c2 rest2 hc, if_pos hp] at hl
    rcases List.mem_cons.mp hl with rfl | hl'
    · intro x hx; simp at hx
    · intro x hx
      exact List.mem_cons_of_mem _ (List.mem_cons_of_mem _ (ih l hl' x hx))
  | case4 c hc c2 rest2 hp ih =>
    intro l hl
    rw [splitlines_br_cons c c2 rest2 hc, if_neg hp] at hl
    rcases List.mem_cons.mp hl with rfl | hl'
    · intro x hx; simp at hx
    · intro x hx
      exact List.mem_cons_of_mem _ (ih l hl' x hx)
  | case5 c rest hc hrest ih =>
    intro l hl
    rw [splitlines_cons_nb c rest (by simpa using hc), hrest] at hl
    simp only [List.mem_singleton] at hl
    subst hl
    intro x hx
    simp only [List.mem_singleton] at hx
    subst hx
    exact List.mem_cons_self _ _
  | case6 c rest hc l0 ls hrest ih =>
    intro l hl
    rw [splitlines_cons_nb c rest (by simpa using hc), hrest] at hl
    rcases List.mem_cons.mp hl with rfl | hl'
    · intro x hx
      rcases List.mem_cons.mp hx with rfl | hx'
      · exact List.mem_cons_self _ _
      · exact List.mem_cons_of_mem _
          (ih l0 (by rw [hrest]; exact List.mem_cons_self _ _) x hx')
    · intro x hx
      exact List.mem_cons_of_mem _
        (ih l (by rw [hrest]; exact List.mem_cons_of_mem _ hl') x hx)

/-- The newline character is a line terminator. -/
theorem nl_break : isLineBreakChar '\n' = true := by decide

/-- splitlines after a leading newline: one empty line, then the
rest. -/
theorem splitlines_nl_cons (v : Txt) : splitlines ('\n' :: v) = [] :: splitlines v := by
  cases v with
  | nil => rw [splitlines_br_nil '\n' nl_break]; rfl
  | cons c2 r2 =>
    rw [splitlines_br_cons '\n' c2 r2 nl_break, if_neg (by simp)]

/-- A non-empty terminator-free string is its own single line. -/
theorem splitlines_single : ∀ (l : Txt), noBreak l = true → l ≠ [] → splitlines l = [l] := by
  intro l
  induction l with
  | nil => intro _ h; exact absurd rfl h
  | cons c rest ih =>
    intro hnb _
    simp only [noBreak, List.all_cons, Bool.and_eq_true, decide_eq_true_eq] at hnb
    have hc : isLineBreakChar c = false := by
      rcases hb : isLineBreakChar c
      · rfl
      · exact absurd hb hnb.1
    rw [splitlines_cons_nb c rest hc]
    cases hr : rest with
    | nil => rw [splitlines.eq_1]
    | cons c2 r2 =>
      have : splitlines rest = [rest] := by
        apply ih
        · simp only [noBreak]
          exact hnb.2
        · rw [hr]; simp
      rw [hr] at this
      rw [this]

/-- The decomposition lemma: splitting after an explicit newline
separates the lines of the two sides. -/
theorem splitlines_append_nl : ∀ (x : Txt) (v : Txt),
    splitlines ((x ++ ['\n']) ++ v) = splitlines (x ++ ['\n']) ++ splitlines v := by
  intro x
  induction x using splitlines.induct with
  | case1 =>
    intro v
    simp only [List.nil_append, List.singleton_append]
    rw [splitlines_nl_cons v, splitlines_nl_cons []]
    simp [splitlines.eq_1]
  | case2 c hc =>
    intro v
    simp only [List.cons_append, List.nil_append]
    by_cases hp : c = '\r'
    · subst hp
      rw [splitlines_br_cons '\r' '\n' v (by decide), if_pos (by decide)]
      rw [splitlines_br_cons '\r' '\n' [] (by decide), if_pos (by decide)]
      rw [splitlines.eq_1]
      rfl
    · rw [splitlines_br_cons c '\n' v hc, if_neg (by simp [hp])]
      rw [splitlines_br_cons c '\n' [] hc, if_neg (by simp [hp])]
      rw [splitlines_nl_cons v, splitlines_nl_cons []]
      simp [splitlines.eq_1]
  | case3 c hc c2 rest2 hp ih =>
    intro v
    have hcr : c = '\r' := of_decide_eq_true ((Bool.and_eq_true _ _).mp hp).1
    have hc2 : c2 = '\n' := of_decide_eq_true ((Bool.and_eq_true _ _).mp hp).2
    subst hcr; subst hc2
    simp only [List.cons_append]
    rw [splitlines_br_cons '\r' '\n' ((rest2 ++ ['\n']) ++ v) (by decide), if_pos (by decide)]
    rw [splitlines_br_cons '\r' '\n' (rest2 ++ ['\n']) (by decide), if_pos (by decide)]
    rw [ih v]
    rfl
  | case4 c hc c2 rest2 hp ih =>
    intro v
    simp only [List.cons_append]
    rw [splitlines_br_cons c c2 ((rest2 ++ ['\n']) ++ v) hc, if_neg hp]
    rw [splitlines_br_cons c c2 (rest2 ++ ['\n']) hc, if_neg hp]
    have := ih v
    simp only [List.cons_append] at this
    rw [this]
    rfl
  | case5 c rest hc hrest ih =>
    intro v
    have hr : rest = [] := by
      by_contra h
      exact splitlines_ne_nil rest h hrest
    subst hr
    have hcf : isLineBreakChar c = false := by simpa using hc
    simp only [List.cons_append, List.nil_append]
    rw [splitlines_cons_nb c ('\n' :: v) hcf, splitlines_nl_cons v]
    rw [splitlines_cons_nb c ['\n'] hcf, splitlines_br_nil '\n' nl_break]
    rfl
  | case6 c rest hc l ls hrest ih =>
    intro v
    have hcf : isLineBreakChar c = false := by simpa using hc
    simp only [List.cons_append]
    rw [splitlines_cons_nb c ((rest ++ ['\n']) ++ v) hcf]
    rw [splitlines_cons_nb c (rest ++ ['\n']) hcf]
    rw [ih v]
    rcases hsh : splitlines (rest ++ ['\n']) with _ | ⟨m, ms⟩
    · exact absurd hsh (splitlines_ne_nil _ (by simp))
    · rfl

/-- Appending a newline either terminates the last line (same lines)
or appends one empty line. -/
theorem splitlines_snoc_nl : ∀ (x : Txt),
    splitlines (x ++ ['\n']) = splitlines x ∨
    splitlines (x ++ ['\n']) = splitlines x ++ [[]] := by
  intro x
  induction x using splitlines.induct with
  | case1 =>
    right
    simp only [List.nil_append, splitlines.eq_1]
    rw [splitlines_br_nil '\n' nl_break]
  | case2 c hc =>
    by_cases hp : c = '\r'
    · left
      subst hp
      rw [List.cons_append, List.nil_append,
        splitlines_br_cons '\r' '\n' [] (by decide), if_pos (by decide),
        splitlines_br_nil '\r' (by decide), splitlines.eq_1]
    · right
      rw [List.cons_append, List.nil_append,
        splitlines_br_cons c '\n' [] hc, if_neg (by simp [hp]),
        splitlines_br_nil '\n' nl_break, splitlines_br_nil c hc]
      rfl
  | case3 c hc c2 rest2 hp ih =>
    have hcr : c = '\r' := of_decide_eq_true ((Bool.and_eq_true _ _).mp hp).1
    have hc2 : c2 = '\n' := of_decide_eq_true ((Bool.and_eq_true _ _).mp hp).2
    subst hcr; subst hc2
    simp only [List.cons_append]
    rw [splitlines_br_cons '\r' '\n' (rest2 ++ ['\n']) (by decide), if_pos (by decide),
      splitlines_br_cons '\r' '\n' rest2 (by decide), if_pos (by decide)]
    rcases ih with h | h
    · left; rw [h]
    · right; rw [h]; rfl
  | case4 c hc c2 rest2 hp ih =>
    simp only [List.cons_append]
    rw [splitlines_br_cons c c2 (rest2 ++ ['\n']) hc, if_neg hp,
      splitlines_br_cons c c2 rest2 hc, if_neg hp]
    have ih' := ih
    simp only [List.cons_append] at ih'
    rcases ih' with h | h
    · left; rw [h]
    · right; rw [h]; rfl
  | case5 c rest hc hrest ih =>
    have hr : rest = [] := by
      by_contra h
      exact splitlines_ne_nil rest h hrest
    subst hr
    have hcf : isLineBreakChar c = false := by simpa using hc
    left
    rw [List.cons_append, List.nil_append,
      splitlines_cons_nb c ['\n'] hcf, splitlines_br_nil '\n' nl_break,
      splitlines_cons_nb c [] hcf, splitlines.eq_1]
  | case6 c rest hc l ls hrest ih =>
    have hcf : isLineBreakChar c = false := by simpa using hc
    simp only [List.cons_append]
    rw [splitlines_cons_nb c (rest ++ ['\n']) hcf, splitlines_cons_nb c rest hcf, hrest]
    rcases ih with h | h
    · left
      rw [h, hrest]
    · right
      rw [h, hrest]
      rfl

/-- A line survives the terminating of the last line. -/
theorem splitlines_mem_snoc_nl (x : Txt) (m : Txt) (hm : m ∈ splitlines x) :
    m ∈ splitlines (x ++ ['\n']) := by
  rcases splitlines_snoc_nl x with h | h
  · rw [h]; exact hm
  · rw [h]; exact List.mem_append_left _ hm

/-- Decomposition at any newline-terminated prefix. -/
theorem splitlines_append_endsNl (u v : Txt) (h : endsNl u) :
    splitlines (u ++ v) = splitlines u ++ splitlines v := by
  obtain ⟨x, rfl⟩ := h
  exact splitlines_append_nl x v

/-- Unfolding of one re-split step. -/
theorem resplitStep_eq (size : ℕ) (tok : Txt → ℕ) (st : SubState) (l : Txt) :
    resplitStep size tok st l =
      if tok (st.subText ++ (if st.subText ≠ [] then ['\n'] else []) ++ l) ≥ size ∧ st.sub ≠ [] then
        ⟨[l], l, st.out ++ [st.subText]⟩
      else ⟨st.sub ++ [l], st.subText ++ (if st.subText ≠ [] then ['\n'] else []) ++ l, st.out⟩ := rfl

/-- One re-split step preserves the budget invariant. -/
theorem resplitStep_budget (size : ℕ) (tok : Txt → ℕ) (st : SubState) (l : Txt)
    (hl : noBreak l = true) (hst : BudgetInv size tok st) :
    BudgetInv size tok (resplitStep size tok st l) := by
  rw [resplitStep_eq]
  by_cases hcond : tok (st.subText ++ (if st.subText ≠ [] then ['\n'] else []) ++ l) ≥ size ∧ st.sub ≠ []
  · rw [if_pos hcond]
    refine ⟨by simp, fun _ => Or.inr hl, ?_⟩
    intro ch hch
    rcases List.mem_append.mp hch with h | h
    · exact hst.2.2 ch h
    · simp only [List.mem_singleton] at h
      subst h
      exact hst.2.1 hcond.2
  · rw [if_neg hcond]
    refine ⟨by simp, ?_, hst.2.2⟩
    intro _
    by_cases hsub : st.sub = []
    · have hempty : st.subText = [] := hst.1 hsub
      rw [hempty]
      simp only [ne_eq, not_true_eq_false]
      simp
      exact Or.inr hl
    · left
      have hlt : ¬ tok (st.subText ++ (if st.subText ≠ [] then ['\n'] else []) ++ l) ≥ size := by
        intro hge
        exact hcond ⟨hge, hsub⟩
      show tok (st.subText ++ (if st.subText ≠ [] then ['\n'] else []) ++ l) < size
      omega

/-- The re-split fold preserves the budget invariant. -/
theorem resplit_fold_budget (size : ℕ) (tok : Txt → ℕ) :
    ∀ (lines : List Txt) (st : SubState), (∀ l ∈ lines, noBreak l = true) →
    BudgetInv size tok st → BudgetInv size tok (lines.foldl (resplitStep size tok) st) := by
  intro lines
  induction lines with
  | nil => exact fun st _ h => h
  | cons l rest ih =>
    intro st hcl hst
    rw [List.foldl_cons]
    exact ih _ (fun x hx => hcl x (List.mem_cons_of_mem _ hx))
      (resplitStep_budget size tok st l (hcl l (List.mem_cons_self _ _)) hst)

/-- Every chunk emitted by the re-split is under budget or a single
line. -/
theorem resplit_budget (size : ℕ) (tok : Txt → ℕ) (lines : List Txt)
    (hcl : ∀ l ∈ lines, noBreak l = true) :
    ∀ ch ∈ resplit size tok lines, tok ch < size ∨ noBreak ch = true := by
  intro ch hch
  have hinv := resplit_fold_budget size tok lines ⟨[], [], []⟩ hcl
    ⟨fun _ => rfl, fun h => absurd rfl h, by intro x hx; simp at hx⟩
  rw [resplit] at hch
  by_cases hsub : (lines.foldl (resplitStep size tok) ⟨[], [], []⟩).sub = []
  · rw [if_neg (by simpa using hsub)] at hch
    exact hinv.2.2 ch hch
  · rw [if_pos hsub] at hch
    rcases List.mem_append.mp hch with h | h
    · exact hinv.2.2 ch h
    · simp only [List.mem_singleton] at h
      subst h
      exact hinv.2.1 hsub

/-- A tracked line stays tracked through one re-split step. -/
theorem resplitStep_tracked_mono (size : ℕ) (tok : Txt → ℕ) (st : SubState) (l : Txt)
    (m : Txt) (hm : Tracked st m) : Tracked (resplitStep size tok st l) m := by
  rw [resplitStep_eq]
  by_cases hcond : tok (st.subText ++ (if st.subText ≠ [] then ['\n'] else []) ++ l) ≥ size ∧ st.sub ≠ []
  · rw [if_pos hcond]
    rcases hm with h | ⟨ch, hch, hmch⟩
    · exact Or.inr ⟨st.subText, by simp, h⟩
    · exact Or.inr ⟨ch, by simp [hch], hmch⟩
  · rw [if_neg hcond]
    rcases hm with h | ⟨ch, hch, hmch⟩
    · left
      show m ∈ splitlines (st.subText ++ (if st.subText ≠ [] then ['\n'] else []) ++ l)
      by_cases hemp : st.subText = []
      · rw [hemp] at h
        simp [splitlines.eq_1] at h
      · rw [if_pos hemp]
        have hassoc : st.subText ++ ['\n'] ++ l = (st.subText ++ ['\n']) ++ l := by
          simp [List.append_assoc]
        rw [hassoc, splitlines_append_nl]
        exact List.mem_append_left _ (splitlines_mem_snoc_nl st.subText m h)
    · exact Or.inr ⟨ch, hch, hmch⟩

/-- The line consumed by a re-split step becomes tracked. -/
theorem resplitStep_tracked_new (size : ℕ) (tok : Txt → ℕ) (st : SubState) (l : Txt)
    (hl : noBreak l = true) (hne : l ≠ []) : Tracked (resplitStep size tok st l) l := by
  have hsing : splitlines l = [l] := splitlines_single l hl hne
  rw [resplitStep_eq]
  by_cases hcond : tok (st.subText ++ (if st.subText ≠ [] then ['\n'] else []) ++ l) ≥ size ∧ st.sub ≠ []
  · rw [if_pos hcond]
    left
    show l ∈ splitlines l
    rw [hsing]
    exact List.mem_singleton.mpr rfl
  · rw [if_neg hcond]
    left
    show l ∈ splitlines (st.subText ++ (if st.subText ≠ [] then ['\n'] else []) ++ l)
    by_cases hemp : st.subText = []
    · rw [hemp, if_neg (by simp : ¬ ([] : Txt) ≠ []), List.nil_append, List.nil_append, hsing]
      exact List.mem_singleton.mpr rfl
    · rw [if_pos hemp]
      have hassoc : st.subText ++ ['\n'] ++ l = (st.subText ++ ['\n']) ++ l := by
        simp [List.append_assoc]
      rw [hassoc, splitlines_append_nl, hsing]
      exact List.mem_append_right _ (List.mem_singleton.mpr rfl)

/-- A tracked line stays tracked through the whole re-split fold. -/
theorem fold_tracked_mono (size : ℕ) (tok : Txt → ℕ) :
    ∀ (lines : List Txt) (st : SubState) (m : Txt),
    Tracked st m → Tracked (lines.foldl (resplitStep size tok) st) m := by
  intro lines
  induction lines with
  | nil => exact fun st m h => h
  | cons b rest ih =>
    intro st m h
    rw [List.foldl_cons]
    exact ih _ m (resplitStep_tracked_mono size tok st b m h)

/-- Every non-empty input line is tracked after the re-split fold. -/
theorem resplit_fold_tracked (size : ℕ) (tok : Txt → ℕ) :
    ∀ (lines : List Txt) (st : SubState), (∀ l ∈ lines, noBreak l = true) →
    ∀ l ∈ lines, l ≠ [] → Tracked (lines.foldl (resplitStep size tok) st) l := by
  intro lines
  induction lines with
  | nil => intro st _ l hl; simp at hl
  | cons a rest ih =>
    intro st hcl l hl hne
    rw [List.foldl_cons]
    rcases List.mem_cons.mp hl with rfl | hl'
    · exact fold_tracked_mono size tok rest _ l
        (resplitStep_tracked_new size tok st l (hcl l (List.mem_cons_self _ _)) hne)
    · exact ih _ (fun x hx => hcl x (List.mem_cons_of_mem _ hx)) l hl' hne

/-- Every non-empty input line appears as a line of some chunk of the
re-split output. -/
theorem resplit_mem (size : ℕ) (tok : Txt → ℕ) (lines : List Txt)
    (hcl : ∀ l ∈ lines, noBreak l = true) (l : Txt) (hl : l ∈ lines) (hne : l ≠ []) :
    ∃ ch ∈ resplit size tok lines, l ∈ splitlines ch := by
  have htr := resplit_fold_tracked size tok lines ⟨[], [], []⟩ hcl l hl hne
  have hinv := resplit_fold_budget size tok lines ⟨[], [], []⟩ hcl
    ⟨fun _ => rfl, fun h => absurd rfl h, by intro x hx; simp at hx⟩
  rw [resplit]
  by_cases hsub : (lines.foldl (resplitStep size tok) ⟨[], [], []⟩).sub = []
  · rw [if_neg (by simpa using hsub)]
    rcases htr with h | ⟨ch, hch, hm⟩
    · rw [hinv.1 hsub] at h
      simp [splitlines.eq_1] at h
    · exact ⟨ch, hch, hm⟩
  · rw [if_pos hsub]
    rcases htr with h | ⟨ch, hch, hm⟩
    · exact ⟨_, List.mem_append_right _ (List.mem_singleton.mpr rfl), h⟩
    · exact ⟨ch, List.mem_append_left _ hch, hm⟩

/-- Specification of the newline scan with base index. -/
theorem findNlIdx_spec : ∀ (l : Txt) (i p : ℕ), findNlIdx l i = some p →
    i ≤ p ∧ p - i < l.length ∧ l.get? (p - i) = some '\n' ∧
      ∀ j, j < p - i → l.get? j ≠ some '\n' := by
  intro l
  induction l with
  | nil => intro i p h; simp [findNlIdx] at h
  | cons c rest ih =>
    intro i p h
    by_cases hc : c = '\n'
    · rw [findNlIdx, if_pos hc] at h
      simp only [Option.some.injEq] at h
      subst h
      refine ⟨le_refl i, by simp, ?_, ?_⟩
      · simp [hc]
      · intro j hj
        omega
    · rw [findNlIdx, if_neg hc] at h
      obtain ⟨h1, h2, h3, h4⟩ := ih (i + 1) p h
      refine ⟨by omega, by simp; omega, ?_, ?_⟩
      · have : p - i = (p - (i + 1)) + 1 := by omega
        rw [this]
        simpa using h3
      · intro j hj
        match j with
        | 0 => simpa using hc
        | j' + 1 =>
          have : j' < p - (i + 1) := by omega
          simpa using h4 j' this

/-- A failed newline scan means no newline at all. -/
theorem findNlIdx_none : ∀ (l : Txt) (i : ℕ), findNlIdx l i = none →
    ∀ j, l.get? j ≠ some '\n' := by
  intro l
  induction l with
  | nil => intro i _ j; simp
  | cons c rest ih =>
    intro i h j
    by_cases hc : c = '\n'
    · rw [findNlIdx, if_pos hc] at h
      exact absurd h (by simp)
    · rw [findNlIdx, if_neg hc] at h
      match j with
      | 0 => simpa using hc
      | j' + 1 => simpa using ih (i + 1) h j'

/-- A successful backward newline scan points at a newline. -/
theorem lastNlIdx_some : ∀ (l : Txt) (p : ℕ), lastNlIdx l = some p →
    p < l.length ∧ l.get? p = some '\n' := by
  intro l
  induction l with
  | nil => intro p h; simp [lastNlIdx] at h
  | cons c rest ih =>
    intro p h
    rw [lastNlIdx] at h
    rcases hr : lastNlIdx rest with _ | j
    · rw [hr] at h
      by_cases hc : c = '\n'
      · rw [if_pos hc] at h
        simp only [Option.some.injEq] at h
        subst h
        exact ⟨by simp, by simp [hc]⟩
      · rw [if_neg hc] at h
        exact absurd h (by simp)
    · rw [hr] at h
      simp only [Option.some.injEq] at h
      subst h
      obtain ⟨h1, h2⟩ := ih j hr
      exact ⟨by simp; omega, by simpa using h2⟩

/-- A failed backward newline scan means no newline at all. -/
theorem lastNlIdx_none : ∀ (l : Txt), lastNlIdx l = none → ∀ j, l.get? j ≠ some '\n' := by
  intro l
  induction l with
  | nil => intro _ j; simp
  | cons c rest ih =>
    intro h j
    rw [lastNlIdx] at h
    rcases hr : lastNlIdx rest with _ | p
    · rw [hr] at h
      by_cases hc : c = '\n'
      · rw [if_pos hc] at h
        exact absurd h (by simp)
      · match j with
        | 0 => simpa using hc
        | j' + 1 => simpa using ih hr j'
    · rw [hr] at h
      exact absurd h (by simp)

/-- Specification of text.find: the result is the first newline at or
after the start position. -/
theorem pyFindNl_some (t : Txt) (pos p : ℕ) (h : pyFindNl t pos = some p) :
    pos ≤ p ∧ p < t.length ∧ t.get? p = some '\n' ∧
      ∀ i, pos ≤ i → i < p → t.get? i ≠ some '\n' := by
  obtain ⟨h1, h2, h3, h4⟩ := findNlIdx_spec (t.drop pos) pos p h
  have hlen : (t.drop pos).length = t.length - pos := by simp
  rw [hlen] at h2
  have hget : (t.drop pos).get? (p - pos) = t.get? p := by
    have hpp : pos + (p - pos) = p := by omega
    simp [List.getElem?_drop, hpp]
  refine ⟨h1, by omega, by rw [hget] at h3; exact h3, ?_⟩
  intro i hpi hip
  have hj : i - pos < p - pos := by omega
  have hne := h4 (i - pos) hj
  have hgi : (t.drop pos).get? (i - pos) = t.get? i := by
    have hpp : pos + (i - pos) = i := by omega
    simp [List.getElem?_drop, hpp]
  rw [hgi] at hne
  exact hne

/-- A failed text.find means no newline from the start position on. -/
theorem pyFindNl_none (t : Txt) (pos : ℕ) (h : pyFindNl t pos = none) :
    ∀ i, pos ≤ i → t.get? i ≠ some '\n' := by
  intro i hpi
  have hne := findNlIdx_none (t.drop pos) pos h (i - pos)
  have hgi : (t.drop pos).get? (i - pos) = t.get? i := by
    have hpp : pos + (i - pos) = i := by omega
    simp [List.getElem?_drop, hpp]
  rw [hgi] at hne
  exact hne

/-- Specification of text.rfind: the result is a newline before the
bound. -/
theorem pyRfindNl_some (t : Txt) (bound p : ℕ) (h : pyRfindNl t bound = some p) :
    p < bound ∧ t.get? p = some '\n' := by
  obtain ⟨h1, h2⟩ := lastNlIdx_some (t.take bound) p h
  have hlen : (t.take bound).length = min bound t.length := by simp
  rw [hlen] at h1
  have hp : p < bound := by omega
  have hget : (t.take bound).get? p = t.get? p := by simp [List.getElem?_take, hp]
  rw [hget] at h2
  exact ⟨hp, h2⟩

/-- A failed text.rfind means no newline before the bound. -/
theorem pyRfindNl_none (t : Txt) (bound : ℕ) (h : pyRfindNl t bound = none) :
    ∀ j, j < bound → t.get? j ≠ some '\n' := by
  intro j hj
  have hne := lastNlIdx_none (t.take bound) h j
  have hget : (t.take bound).get? j = t.get? j := by simp [List.getElem?_take, hj]
  rw [hget] at hne
  exact hne

/-- The record keeps its start position. -/
theorem chunkIter_start (text : Txt) (size overlap : ℕ) (tok : Txt → ℕ) (start : ℕ) :
    (chunkIter text size overlap tok start).start = start := rfl

/-- The tentative cut of one iteration. -/
theorem chunkIter_rawEnd (text : Txt) (size overlap : ℕ) (tok : Txt → ℕ) (start : ℕ) :
    (chunkIter text size overlap tok start).rawEnd = min text.length (start + size * 4) := rfl

/-- Unfolding of the adjusted cut of one iteration. -/
theorem chunkIter_endPos (text : Txt) (size overlap : ℕ) (tok : Txt → ℕ) (start : ℕ) :
    (chunkIter text size overlap tok start).endPos =
      (if (chunkIter text size overlap tok start).rawEnd < text.length then
        match pyFindNl text (chunkIter text size overlap tok start).rawEnd with
        | some p =>
          if p < (chunkIter text size overlap tok start).rawEnd + 500 then p + 1
          else (chunkIter text size overlap tok start).rawEnd
        | none => (chunkIter text size overlap tok start).rawEnd
      else (chunkIter text size overlap tok start).rawEnd) := rfl

/-- Unfolding of the chunks emitted by one iteration. -/
theorem chunkIter_emitted (text : Txt) (size overlap : ℕ) (tok : Txt → ℕ) (start : ℕ) :
    (chunkIter text size overlap tok start).emitted =
      (if isBlank (slice text start (chunkIter text size overlap tok start).endPos) then []
       else if tok (slice text start (chunkIter text size overlap tok start).endPos) > size then
         resplit size tok (splitlines (slice text start (chunkIter text size overlap tok start).endPos))
       else [slice text start (chunkIter text size overlap tok start).endPos]) := rfl

/-- Unfolding of the next start position of one iteration. -/
theorem chunkIter_nextStart (text : Txt) (size overlap : ℕ) (tok : Txt → ℕ) (start : ℕ) :
    (chunkIter text size overlap tok start).nextStart =
      (if 0 < overlap ∧ (chunkIter text size overlap tok start).endPos < text.length then
        if 0 < (chunkIter text size overlap tok start).endPos - overlap * 4 then
          match pyRfindNl text ((chunkIter text size overlap tok start).endPos - overlap * 4) with
          | some p => p + 1
          | none => (chunkIter text size overlap tok start).endPos - overlap * 4
        else (chunkIter text size overlap tok start).endPos - overlap * 4
      else (chunkIter text size overlap tok start).endPos) := rfl

/-- The adjusted cut never passes the text end. -/
theorem chunkIter_endPos_le (text : Txt) (size overlap : ℕ) (tok : Txt → ℕ) (start : ℕ) :
    (chunkIter text size overlap tok start).endPos ≤ text.length := by
  rw [chunkIter_endPos, chunkIter_rawEnd]
  by_cases hlt : min text.length (start + size * 4) < text.length
  · rw [if_pos hlt]
    rcases hf : pyFindNl text (min text.length (start + size * 4)) with _ | p
    · exact le_of_lt hlt
    · obtain ⟨_, hp, _, _⟩ := pyFindNl_some text _ p hf
      show (if p < min text.length (start + size * 4) + 500 then p + 1
        else min text.length (start + size * 4)) ≤ text.length
      by_cases hc : p < min text.length (start + size * 4) + 500
      · rw [if_pos hc]
        omega
      · rw [if_neg hc]
        exact le_of_lt hlt
  · rw [if_neg hlt]
    exact min_le_left _ _

/-- The next start never passes the adjusted cut. -/
theorem chunkIter_nextStart_le (text : Txt) (size overlap : ℕ) (tok : Txt → ℕ) (start : ℕ) :
    (chunkIter text size overlap tok start).nextStart ≤
      (chunkIter text size overlap tok start).endPos := by
  rw [chunkIter_nextStart]
  by_cases h1 : 0 < overlap ∧ (chunkIter text size overlap tok start).endPos < text.length
  · rw [if_pos h1]
    by_cases h2 : 0 < (chunkIter text size overlap tok start).endPos - overlap * 4
    · rw [if_pos h2]
      rcases hr : pyRfindNl text ((chunkIter text size overlap tok start).endPos - overlap * 4) with _ | p
      · show (chunkIter text size overlap tok start).endPos - overlap * 4 ≤ _
        omega
      · obtain ⟨hp, _⟩ := pyRfindNl_some text _ p hr
        show p + 1 ≤ _
        omega
    · rw [if_neg h2]
      omega
  · rw [if_neg h1]

/-- Every cursor-loop record is the iteration of its own start. -/
theorem chunkLoop_recs_shape (text : Txt) (size overlap : ℕ) (tok : Txt → ℕ) :
    ∀ (fuel start : ℕ), ∀ r ∈ (chunkLoop text size overlap tok fuel start).1,
      r = chunkIter text size overlap tok r.start := by
  intro fuel
  induction fuel with
  | zero => intro start r hr; simp [chunkLoop] at hr
  | succ f ih =>
    intro start r hr
    rw [chunkLoop] at hr
    by_cases hlt : start < text.length
    · rw [if_pos hlt] at hr
      rcases List.mem_cons.mp hr with rfl | hr'
      · rw [chunkIter_start]
      · exact ih _ r hr'
    · rw [if_neg hlt] at hr
      simp at hr

/-- A prefix cut right after a newline character ends in a newline. -/
theorem endsNl_take (text : Txt) (e : ℕ) (h0 : 0 < e)
    (hnl : text.get? (e - 1) = some '\n') : endsNl (text.take e) := by
  have he : e = (e - 1) + 1 := by omega
  refine ⟨text.take (e - 1), ?_⟩
  rw [he, List.take_succ]
  rw [List.get?_eq_getElem?] at hnl
  rw [hnl]
  rfl

/-- A longer prefix is a shorter prefix plus the slice between. -/
theorem take_decomp (text : Txt) (a b : ℕ) (hab : a ≤ b) :
    text.take b = text.take a ++ slice text a b := by
  have hb : b = a + (b - a) := by omega
  conv_lhs => rw [hb]
  rw [List.take_add]
  rfl

/-- A slice splits at any interior position. -/
theorem slice_decomp (text : Txt) (s m e : ℕ) (hsm : s ≤ m) (hme : m ≤ e) :
    slice text s e = slice text s m ++ slice text m e := by
  show (text.drop s).take (e - s) = (text.drop s).take (m - s) ++ (text.drop m).take (e - m)
  have he : e - s = (m - s) + (e - m) := by omega
  rw [he, List.take_add, List.drop_drop]
  have hm : s + (m - s) = m := by omega
  rw [hm]

/-- A slice ending at a newline-terminated prefix end also ends in a
newline. -/
theorem endsNl_slice (text : Txt) (s m : ℕ) (hsm : s < m) (hml : m ≤ text.length)
    (h : endsNl (text.take m)) : endsNl (slice text s m) := by
  obtain ⟨x, hx⟩ := h
  have hsl : slice text s m = (text.take m).drop s := by
    show (text.drop s).take (m - s) = (text.take m).drop s
    rw [List.drop_take]
  have hxlen : x.length = m - 1 := by
    have h1 := congrArg List.length hx
    simp at h1
    omega
  have hsx : s ≤ x.length := by omega
  rw [hsl, hx, List.drop_append_of_le_length hsx]
  exact ⟨x.drop s, rfl⟩



/-- A non-blank string is non-empty. -/
theorem isBlank_false_ne_nil (l : Txt) (h : isBlank l = false) : l ≠ [] := by
  intro hl
  subst hl
  simp [isBlank] at h

/-- A window holding a non-blank line is itself non-blank. -/
theorem isBlank_transfer (w l : Txt) (hl : l ∈ splitlines w) (h : isBlank l = false) :
    isBlank w = false := by
  simp only [isBlank, List.all_eq_false] at h ⊢
  obtain ⟨c, hc, hcs⟩ := h
  exact ⟨c, splitlines_chars w l hl c hc, hcs⟩

/-- A non-blank line of a window survives into the iteration's
emitted chunks. -/
theorem chunkIter_window_mem (text : Txt) (size overlap : ℕ) (tok : Txt → ℕ) (start : ℕ)
    (l : Txt) (hl : l ∈ splitlines (slice text start (chunkIter text size overlap tok start).endPos))
    (hbl : isBlank l = false) :
    ∃ ch ∈ (chunkIter text size overlap tok start).emitted, l ∈ splitlines ch := by
  rw [chunkIter_emitted]
  have hwbl : isBlank (slice text start (chunkIter text size overlap tok start).endPos) = false :=
    isBlank_transfer _ l hl hbl
  rw [hwbl]
  simp only [Bool.false_eq_true, if_false]
  by_cases hover : tok (slice text start (chunkIter text size overlap tok start).endPos) > size
  · rw [if_pos hover]
    exact resplit_mem size tok _ (splitlines_clean _) l hl (isBlank_false_ne_nil l hbl)
  · rw [if_neg hover]
    exact ⟨_, List.mem_singleton.mpr rfl, hl⟩

/-- The coverage invariant of the cursor loop: with every window end
at a line boundary, a non-blank line of the text is a line of the
already-covered prefix (up to the running maximum M of window ends) or
of some later iteration's emitted chunk. -/
theorem chunkLoop_cover (text : Txt) (size overlap : ℕ) (tok : Txt → ℕ) :
    ∀ (fuel start M : ℕ), start ≤ M → M ≤ text.length →
    (M = 0 ∨ endsNl (text.take M) ∨ M = text.length) →
    (chunkLoop text size overlap tok fuel start).2 = true →
    (∀ r ∈ (chunkLoop text size overlap tok fuel start).1,
      r.endPos = text.length ∨ (0 < r.endPos ∧ text.get? (r.endPos - 1) = some '\n')) →
    ∀ l ∈ splitlines text, isBlank l = false →
      l ∈ splitlines (text.take M) ∨
      ∃ r ∈ (chunkLoop text size overlap tok fuel start).1, ∃ ch ∈ r.emitted, l ∈ splitlines ch := by
  intro fuel
  induction fuel with
  | zero =>
    intro start M _ _ _ hc _ l _ _
    simp [chunkLoop] at hc
  | succ f ih =>
    intro start M hsm hml hb hc hns l hl hbl
    by_cases hlt : start < text.length
    · have hrecs : (chunkLoop text size overlap tok (f + 1) start).1 =
          chunkIter text size overlap tok start ::
            (chunkLoop text size overlap tok f
              (chunkIter text size overlap tok start).nextStart).1 := by
        rw [chunkLoop, if_pos hlt]
      have hcomp : (chunkLoop text size overlap tok f
          (chunkIter text size overlap tok start).nextStart).2 = true := by
        rw [chunkLoop, if_pos hlt] at hc
        exact hc
      set r := chunkIter text size overlap tok start with hrdef
      have hrmem : r ∈ (chunkLoop text size overlap tok (f + 1) start).1 := by
        rw [hrecs]
        exact List.mem_cons_self _ _
      have hrend := hns r hrmem
      have hele : r.endPos ≤ text.length := chunkIter_endPos_le text size overlap tok start
      have hnsle : r.nextStart ≤ r.endPos := chunkIter_nextStart_le text size overlap tok start
      have hM' : r.nextStart ≤ max M r.endPos := le_trans hnsle (le_max_right _ _)
      have hml' : max M r.endPos ≤ text.length := max_le hml hele
      have hb' : max M r.endPos = 0 ∨ endsNl (text.take (max M r.endPos)) ∨
          max M r.endPos = text.length := by
        by_cases he : r.endPos ≤ M
        · rw [max_eq_left he]
          exact hb
        · rw [max_eq_right (by omega : M ≤ r.endPos)]
          rcases hrend with h | ⟨h0, hnl⟩
          · exact Or.inr (Or.inr h)
          · exact Or.inr (Or.inl (endsNl_take text r.endPos h0 hnl))
      have hns' : ∀ r' ∈ (chunkLoop text size overlap tok f r.nextStart).1,
          r'.endPos = text.length ∨ (0 < r'.endPos ∧ text.get? (r'.endPos - 1) = some '\n') := by
        intro r' hr'
        refine hns r' ?_
        rw [hrecs]
        exact List.mem_cons_of_mem _ hr'
      rcases ih r.nextStart (max M r.endPos) hM' hml' hb' hcomp hns' l hl hbl with hleft | ⟨r', hr', hch⟩
      · by_cases he : r.endPos ≤ M
        · rw [max_eq_left he] at hleft
          exact Or.inl hleft
        · rw [max_eq_right (by omega : M ≤ r.endPos)] at hleft
          -- decompose take endPos at M
          have hMe : M ≤ r.endPos := by omega
          have hdec : splitlines (text.take r.endPos) =
              splitlines (text.take M) ++ splitlines (slice text M r.endPos) := by
            rw [take_decomp text M r.endPos hMe]
            by_cases hM0 : M = 0
            · subst hM0
              simp [List.take_zero, splitlines.eq_1]
            · rcases hb with h | h | h
              · exact absurd h hM0
              · exact splitlines_append_endsNl _ _ h
              · omega
          rw [hdec] at hleft
          rcases List.mem_append.mp hleft with h | h
          · exact Or.inl h
          · -- l is a line of the window of r
            have hwin : slice text start r.endPos =
                slice text start M ++ slice text M r.endPos :=
              slice_decomp text start M r.endPos hsm hMe
            have hlw : l ∈ splitlines (slice text start r.endPos) := by
              rw [hwin]
              by_cases hsM : start < M
              · rw [splitlines_append_endsNl _ _ ?hnl]
                · exact List.mem_append_right _ h
                · rcases hb with hb0 | hbnl | hblen
                  · omega
                  · exact endsNl_slice text start M hsM hml hbnl
                  · omega
              · have hseq : start = M := by omega
                subst hseq
                have : slice text start start = [] := by
                  show (text.drop start).take (start - start) = []
                  simp
                rw [this, List.nil_append]
                exact h
            obtain ⟨ch, hchm, hchl⟩ :=
              chunkIter_window_mem text size overlap tok start l hlw hbl
            exact Or.inr ⟨r, hrmem, ch, hchm, hchl⟩
      · refine Or.inr ⟨r', ?_, hch⟩
        rw [hrecs]
        exact List.mem_cons_of_mem _ hr'
    · -- loop exits: start ≥ len, so M = len and take M covers everything
      have hMlen : M = text.length := by omega
      subst hMlen
      rw [List.take_length]
      exact Or.inl hl



/-- C7 (amended).  Coverage: provided the run completed and no window
was hard-split — every cursor cut lands at the text end or right after
a newline — every non-blank line of the input appears as a line of at
least one emitted chunk. -/
theorem claim7_coverage (fuel : ℕ) (text : Txt) (size overlap : ℕ) (tok : Txt → ℕ)
    (hcomp : (chunkDocument fuel text size overlap tok).completed = true)
    (hns : ∀ r ∈ (chunkDocument fuel text size overlap tok).recs,
      r.endPos = text.length ∨ (0 < r.endPos ∧ text.get? (r.endPos - 1) = some '\n')) :
    ∀ l ∈ splitlines text, isBlank l = false →
      ∃ ch ∈ (chunkDocument fuel text size overlap tok).chunks, l ∈ splitlines ch := by
  intro l hl hbl
  by_cases hfit : tok text ≤ size
  · refine ⟨text, ?_, hl⟩
    rw [chunkDocument, if_pos hfit]
    exact List.mem_singleton.mpr rfl
  · have hrecs : (chunkDocument fuel text size overlap tok).recs =
        (chunkLoop text size overlap tok fuel 0).1 := by
      rw [chunkDocument, if_neg hfit]
    have hcomp' : (chunkLoop text size overlap tok fuel 0).2 = true := by
      rw [chunkDocument, if_neg hfit] at hcomp
      exact hcomp
    have hns' : ∀ r ∈ (chunkLoop text size overlap tok fuel 0).1,
        r.endPos = text.length ∨ (0 < r.endPos ∧ text.get? (r.endPos - 1) = some '\n') := by
      rw [hrecs] at hns
      exact hns
    rcases chunkLoop_cover text size overlap tok fuel 0 0 (le_refl 0) (by omega)
      (Or.inl rfl) hcomp' hns' l hl hbl with h | ⟨r, hr, ch, hch, hchl⟩
    · simp [splitlines.eq_1] at h
    · refine ⟨ch, ?_, hchl⟩
      rw [chunkDocument, if_neg hfit]
      simp only [List.mem_flatten, List.mem_map]
      exact ⟨r.emitted, ⟨r, hr, rfl⟩, hch⟩

/-- C7 counterexample.  The claim says every non-blank line of every
text appears in some chunk; but a 20-character single-line text split
with budget 4 (one token per character) is hard-split mid-line on a
completed run, and its one line is a line of no emitted chunk. -/
theorem claim7_counterexample :
    (chunkDocument 100 covText 4 0 List.length).completed = true ∧
    covText ∈ splitlines covText ∧ isBlank covText = false ∧
    ∀ ch ∈ (chunkDocument 100 covText 4 0 List.length).chunks, covText ∉ splitlines ch := by
  decide

/-- Witness for C7 on a concrete hard-split-free run. -/
theorem claim7_witness :
    ∃ ch ∈ (chunkDocument 10 covNl 1 0 List.length).chunks, "ab".toList ∈ splitlines ch := by
  refine claim7_coverage 10 covNl 1 0 List.length (by decide) ?_ "ab".toList (by decide) (by decide)
  intro r hr
  have hrec : (chunkDocument 10 covNl 1 0 List.length).recs =
      [⟨0, 4, 6, ["ab".toList, "cd".toList], 6⟩] := by decide
  rw [hrec] at hr
  simp only [List.mem_singleton] at hr
  subst hr
  exact Or.inl (by decide)

/-- C3.  Chunk budget: every chunk emitted by chunk_document either
fits the token budget or is a single line (no terminator character),
so an over-budget chunk can exceed the budget by at most one line's
worth of tokens. -/
theorem claim3_chunk_budget (fuel : ℕ) (text : Txt) (size overlap : ℕ) (tok : Txt → ℕ) :
    ∀ ch ∈ (chunkDocument fuel text size overlap tok).chunks,
      tok ch ≤ size ∨ noBreak ch = true := by
  intro ch hch
  rw [chunkDocument] at hch
  by_cases hfit : tok text ≤ size
  · rw [if_pos hfit] at hch
    simp only [List.mem_singleton] at hch
    subst hch
    exact Or.inl hfit
  · rw [if_neg hfit] at hch
    simp only [List.mem_flatten, List.mem_map] at hch
    obtain ⟨e, ⟨r, hr, rfl⟩, hche⟩ := hch
    have hshape := chunkLoop_recs_shape text size overlap tok fuel 0 r hr
    rw [hshape, chunkIter_emitted] at hche
    by_cases hbl : isBlank (slice text r.start (chunkIter text size overlap tok r.start).endPos)
    · rw [if_pos hbl] at hche
      simp at hche
    · rw [if_neg hbl] at hche
      by_cases hover : tok (slice text r.start (chunkIter text size overlap tok r.start).endPos) > size
      · rw [if_pos hover] at hche
        rcases resplit_budget size tok _ (splitlines_clean _) ch hche with h | h
        · exact Or.inl (le_of_lt h)
        · exact Or.inr h
      · rw [if_neg hover] at hche
        simp only [List.mem_singleton] at hche
        subst hche
        exact Or.inl (by omega)

/-- Witness for C3: a concrete chunk of a concrete run satisfies the
budget disjunction. -/
theorem claim3_witness :
    ("ab".toList ∈ (chunkDocument 10 covNl 1 0 List.length).chunks) ∧
    (List.length "ab".toList ≤ 1 ∨ noBreak "ab".toList = true) := by
  constructor
  · decide
  · exact claim3_chunk_budget 10 covNl 1 0 List.length "ab".toList (by decide)

/-- The newline-extension behaviour of one cursor iteration: a break
within the 500-character lookahead puts the cut right after a newline,
no break within it leaves the cut at the tentative position, and the
next start is the cut itself, 0, just after a newline, or at a
position with no newline anywhere before it. -/
theorem chunkIter_no_split (text : Txt) (size overlap : ℕ) (tok : Txt → ℕ) (start : ℕ) :
    ((chunkIter text size overlap tok start).rawEnd < text.length →
      ((∃ i, (chunkIter text size overlap tok start).rawEnd ≤ i ∧
          i < (chunkIter text size overlap tok start).rawEnd + 500 ∧ text.get? i = some '\n') →
        0 < (chunkIter text size overlap tok start).endPos ∧
          text.get? ((chunkIter text size overlap tok start).endPos - 1) = some '\n') ∧
      ((∀ i, (chunkIter text size overlap tok start).rawEnd ≤ i →
          i < (chunkIter text size overlap tok start).rawEnd + 500 → text.get? i ≠ some '\n') →
        (chunkIter text size overlap tok start).endPos =
          (chunkIter text size overlap tok start).rawEnd)) ∧
    ((chunkIter text size overlap tok start).nextStart =
        (chunkIter text size overlap tok start).endPos ∨
      (chunkIter text size overlap tok start).nextStart = 0 ∨
      text.get? ((chunkIter text size overlap tok start).nextStart - 1) = some '\n' ∨
      ∀ j, j < (chunkIter text size overlap tok start).nextStart →
        text.get? j ≠ some '\n') := by
  constructor
  · intro hrlt
    rcases hf : pyFindNl text (chunkIter text size overlap tok start).rawEnd with _ | p
    · have hend : (chunkIter text size overlap tok start).endPos =
          (chunkIter text size overlap tok start).rawEnd := by
        rw [chunkIter_endPos, if_pos hrlt, hf]
      constructor
      · rintro ⟨i, hi1, _, hi3⟩
        exact absurd hi3 (pyFindNl_none text _ hf i hi1)
      · intro _
        exact hend
    · obtain ⟨hp1, hp2, hp3, hp4⟩ := pyFindNl_some text _ p hf
      by_cases hc : p < (chunkIter text size overlap tok start).rawEnd + 500
      · have hend : (chunkIter text size overlap tok start).endPos = p + 1 := by
          rw [chunkIter_endPos, if_pos hrlt, hf]
          exact if_pos hc
        constructor
        · intro _
          rw [hend]
          exact ⟨by omega, by simpa using hp3⟩
        · intro hno
          exact absurd hp3 (hno p hp1 hc)
      · have hend : (chunkIter text size overlap tok start).endPos =
            (chunkIter text size overlap tok start).rawEnd := by
          rw [chunkIter_endPos, if_pos hrlt, hf]
          exact if_neg hc
        constructor
        · rintro ⟨i, hi1, hi2, hi3⟩
          have hip : i < p := by omega
          exact absurd hi3 (hp4 i hi1 hip)
        · intro _
          exact hend
  · by_cases h1 : 0 < overlap ∧ (chunkIter text size overlap tok start).endPos < text.length
    · by_cases h2 : 0 < (chunkIter text size overlap tok start).endPos - overlap * 4
      · rcases hr : pyRfindNl text ((chunkIter text size overlap tok start).endPos - overlap * 4) with _ | p
        · have hns : (chunkIter text size overlap tok start).nextStart =
              (chunkIter text size overlap tok start).endPos - overlap * 4 := by
            rw [chunkIter_nextStart, if_pos h1, if_pos h2, hr]
          refine Or.inr (Or.inr (Or.inr (fun j hj => ?_)))
          rw [hns] at hj
          exact pyRfindNl_none text _ hr j hj
        · have hns : (chunkIter text size overlap tok start).nextStart = p + 1 := by
            rw [chunkIter_nextStart, if_pos h1, if_pos h2, hr]
          obtain ⟨_, hp2⟩ := pyRfindNl_some text _ p hr
          refine Or.inr (Or.inr (Or.inl ?_))
          rw [hns]
          simpa using hp2
      · have hns : (chunkIter text size overlap tok start).nextStart =
            (chunkIter text size overlap tok start).endPos - overlap * 4 := by
          rw [chunkIter_nextStart, if_pos h1, if_neg h2]
        refine Or.inr (Or.inl ?_)
        rw [hns]
        omega
    · have hns : (chunkIter text size overlap tok start).nextStart =
          (chunkIter text size overlap tok start).endPos := by
        rw [chunkIter_nextStart, if_neg h1]
      exact Or.inl hns

/-- C4 counterexample.  The claim says no chunk boundary falls
strictly inside a line when a line break exists within the lookahead
window; but on a text whose first line exceeds the window, the overlap
pull-back followed by rfind (which looks only backward) can start the
next chunk strictly inside that line even though the line's break sits
well within 500 characters ahead: on ten a's + newline + five b's at
size 2 and overlap 1 the run completes and its second window starts at
position 7, mid-line, with the break at index 10 ahead of it. -/
theorem claim4_counterexample :
    (chunkDocument 10 c4text 2 1 List.length).completed = true ∧
    ∃ r ∈ (chunkDocument 10 c4text 2 1 List.length).recs,
      0 < r.start ∧ c4text.get? (r.start - 1) ≠ some '\n' ∧
      r.start ≤ 10 ∧ 10 < r.start + 500 ∧ c4text.get? 10 = some '\n' := by decide

/-- C4 (amended).  Only the cut end of each window never splits a line
when a break is near: for every cursor-loop record, when the tentative
cut is not at the text end, a line break within the 500-character
lookahead window makes the adjusted cut land right after a newline,
and with no break in the window the cut stays at the tentative
(hard-split) position; the next window's start satisfies only the
weaker guarantee of being the cut itself, position 0, a position right
after a newline, or a position with no newline anywhere BEFORE it —
the last disjunct is what lets the overlap pull-back start a chunk
mid-line even with a break ahead in the lookahead window. -/
theorem claim4_no_split (fuel : ℕ) (text : Txt) (size overlap : ℕ) (tok : Txt → ℕ) :
    ∀ r ∈ (chunkDocument fuel text size overlap tok).recs,
      (r.rawEnd < text.length →
        ((∃ i, r.rawEnd ≤ i ∧ i < r.rawEnd + 500 ∧ text.get? i = some '\n') →
          0 < r.endPos ∧ text.get? (r.endPos - 1) = some '\n') ∧
        ((∀ i, r.rawEnd ≤ i → i < r.rawEnd + 500 → text.get? i ≠ some '\n') →
          r.endPos = r.rawEnd)) ∧
      (r.nextStart = r.endPos ∨ r.nextStart = 0 ∨
        text.get? (r.nextStart - 1) = some '\n' ∨
        ∀ j, j < r.nextStart → text.get? j ≠ some '\n') := by
  intro r hr
  rw [chunkDocument] at hr
  by_cases hfit : tok text ≤ size
  · rw [if_pos hfit] at hr
    simp at hr
  · rw [if_neg hfit] at hr
    have hshape := chunkLoop_recs_shape text size overlap tok fuel 0 r hr
    have hfacts := chunkIter_no_split text size overlap tok r.start
    rw [← hshape] at hfacts
    exact hfacts

/-- Witness for C4 at the concrete covNl record, whose lookahead
window holds the newline at index 5. -/
theorem claim4_witness :
    0 < covNlRec.endPos ∧ covNl.get? (covNlRec.endPos - 1) = some '\n' :=
  ((claim4_no_split 10 covNl 1 0 List.length covNlRec (by decide)).1 (by decide)).1
    ⟨5, by decide, by decide, by decide⟩

end Survey
